import Mathlib

/-!
Shallow embedding of the `ominimo_price_validator` repository
(`src/core.py`, `src/parser.py`, `src/validator.py`, `src/fixer.py`,
`src/main.py`) and proofs about its specification.

Modelling conventions:
* Python `dict[str, float]` is modelled as an insertion-ordered association
  list `List (String × ℚ)`.  Python dictionaries preserve insertion order and
  have unique keys; assignment to an existing key keeps its position, a new
  key is appended.  `aset` mirrors that on association lists.
* IEEE-754 `float` values and arithmetic are modelled as exact rationals `ℚ`.
* `key.lower().strip()` is modelled on ASCII text: `Char.toLower` and
  `Char.isWhitespace` coincide with Python's behaviour on ASCII keys.
* Source functions that raise (`ValueError`) are modelled with `Except` and
  structured error values carrying the same data as the message f-strings.
* Entries appended to `FixReport.fix_log` are human-readable strings in the
  source; each `report.log(...)` call site is modelled by one constructor of
  `LogEntry` carrying exactly the data interpolated into that string.
-/

namespace OminimoPriceValidator

/-! ## Data model (`src/core.py`) -/

inductive Product where
  | MTPL
  | LIMITED_CASCO
  | CASCO
deriving DecidableEq, Repr

/-- `Product.key`: canonical string used in input dictionary keys. -/
def Product.key : Product → String
  | .MTPL => "mtpl"
  | .LIMITED_CASCO => "limited_casco"
  | .CASCO => "casco"

inductive Variant where
  | COMPACT
  | BASIC
  | COMFORT
  | PREMIUM
deriving DecidableEq, Repr

def Variant.key : Variant → String
  | .COMPACT => "compact"
  | .BASIC => "basic"
  | .COMFORT => "comfort"
  | .PREMIUM => "premium"

inductive Deductible where
  | D100
  | D200
  | D500
deriving DecidableEq, Repr

/-- `Deductible.amount`: numeric deductible amount. -/
def Deductible.amount : Deductible → Nat
  | .D100 => 100
  | .D200 => 200
  | .D500 => 500

/-- `REFERENCE_AVG_PRICE` (reference prices and factors in `core.py`). -/
def REFERENCE_AVG_PRICE : Product → ℚ
  | .MTPL => 400
  | .LIMITED_CASCO => 700
  | .CASCO => 900

def RATIO_LC_OVER_MTPL : ℚ :=
  REFERENCE_AVG_PRICE .LIMITED_CASCO / REFERENCE_AVG_PRICE .MTPL

def RATIO_C_OVER_MTPL : ℚ :=
  REFERENCE_AVG_PRICE .CASCO / REFERENCE_AVG_PRICE .MTPL

def RATIO_C_OVER_LC : ℚ :=
  REFERENCE_AVG_PRICE .CASCO / REFERENCE_AVG_PRICE .LIMITED_CASCO

/-- `DEDUCTIBLE_FACTOR`: 100 baseline, each step about 10 percent cheaper. -/
def DEDUCTIBLE_FACTOR : Deductible → ℚ
  | .D100 => 1
  | .D200 => 9/10
  | .D500 => 4/5

/-- `VARIANT_FACTOR`: variant steps relative to the base tier. -/
def VARIANT_FACTOR : Variant → ℚ
  | .COMPACT => 1
  | .BASIC => 1
  | .COMFORT => 107/100
  | .PREMIUM => 114/100

/-- `PricingItem`: parsed representation of a key in the prices dict. -/
structure PricingItem where
  key : String
  product : Product
  variant : Option Variant
  deductible : Option Deductible
deriving DecidableEq, Repr

/-! ## Association-list model of Python dictionaries -/

/-- First binding of `a`, mirroring Python dict lookup (keys are unique in a
dict, so "first" is exact). -/
def alookup {α β : Type} [DecidableEq α] : List (α × β) → α → Option β
  | [], _ => none
  | (k, v) :: t, a => if k = a then some v else alookup t a

/-- Python dict assignment `d[a] = b`: overwrite in place (keeping the key's
position) when present, append otherwise. -/
def aset {α β : Type} [DecidableEq α] : List (α × β) → α → β → List (α × β)
  | [], a, b => [(a, b)]
  | (k, v) :: t, a, b => if k = a then (a, b) :: t else (k, v) :: aset t a b

abbrev PriceMap := List (String × ℚ)

/-- Python `min(a, b)` (ties keep the first argument; on `ℚ` equal values are
identical, so this is exact).  Stated separately from Mathlib's `min` so that
it reduces in the kernel. -/
def qmin (a b : ℚ) : ℚ := if a ≤ b then a else b

/-- Python `max(a, b)`. -/
def qmax (a b : ℚ) : ℚ := if b ≤ a then a else b

/-- Python `abs(x)`. -/
def qabs (x : ℚ) : ℚ := if x < 0 then -x else x

/-- `prices[k]` as a total function.  Every read in the source happens at a
key that is present (otherwise Python would raise `KeyError`); the default `0`
is never observed in the engine contexts the theorems describe. -/
def getP (p : PriceMap) (k : String) : ℚ := (alookup p k).getD 0

/-- `k in p` for a Python dict. -/
def hasKey (p : PriceMap) (k : String) : Bool := (alookup p k).isSome

/-! ## Key parser (`src/parser.py`) -/

/-- `ValueError`s raised by `DefaultPriceParser.parse_key`; each constructor
carries the data interpolated into the corresponding message.  The defensive
re-checks at the end of `parse_key` are unreachable (the matched tokens are
already valid enum values) and have no constructors. -/
inductive ParseError where
  | invalidKeyFormat (key : String)
  | invalidDeductible (key : String) (ded : Nat)
deriving DecidableEq, Repr

/-- The offending key named by a parse error message. -/
def ParseError.offending : ParseError → String
  | .invalidKeyFormat key => key
  | .invalidDeductible key _ => key

/-- `key.lower().strip()` (ASCII model): lowercase every character, then drop
leading and trailing whitespace. -/
def lowerStrip (key : String) : List Char :=
  (((key.data.map Char.toLower).dropWhile Char.isWhitespace).reverse.dropWhile
      Char.isWhitespace).reverse

/-- Boolean literal-prefix test on character lists. -/
def isPre : List Char → List Char → Bool
  | [], _ => true
  | _ :: _, [] => false
  | a :: as, b :: bs => a == b && isPre as bs

/-- Strip a literal token from the front of `cs`, if it is a prefix. -/
def tokenStrip (tok : List Char) (cs : List Char) : Option (List Char) :=
  if isPre tok cs then some (cs.drop tok.length) else none

/-- The product alternation `(limited_casco|casco)` followed by `_`, tried in
the regex's order.  The two literals start with different characters, so the
regex's anchored match is this deterministic prefix test. -/
def matchProduct (cs : List Char) : Option (Product × List Char) :=
  match tokenStrip "limited_casco_".data cs with
  | some rest => some (.LIMITED_CASCO, rest)
  | none =>
    match tokenStrip "casco_".data cs with
    | some rest => some (.CASCO, rest)
    | none => none

/-- The variant alternation `(compact|basic|comfort|premium)` followed by `_`,
tried in the regex's order; no alternative is a prefix of another. -/
def matchVariant (cs : List Char) : Option (Variant × List Char) :=
  match tokenStrip "compact_".data cs with
  | some rest => some (.COMPACT, rest)
  | none =>
    match tokenStrip "basic_".data cs with
    | some rest => some (.BASIC, rest)
    | none =>
      match tokenStrip "comfort_".data cs with
      | some rest => some (.COMFORT, rest)
      | none =>
        match tokenStrip "premium_".data cs with
        | some rest => some (.PREMIUM, rest)
        | none => none

/-- `int(ded_str)` on a digit string. -/
def digitsToNat (cs : List Char) : Nat :=
  cs.foldl (fun a c => a * 10 + (c.toNat - 48)) 0

/-- `Deductible(ded_int)`: enum lookup by numeric value. -/
def dedOfNat (n : Nat) : Option Deductible :=
  if n = 100 then some .D100
  else if n = 200 then some .D200
  else if n = 500 then some .D500
  else none

/-- `DefaultPriceParser.parse_key`.  The regex
`^(limited_casco|casco)_(compact|basic|comfort|premium)_(\d+)$` is realised by
the deterministic token matchers above plus an all-digits check on the tail. -/
def parse_key (key : String) : Except ParseError PricingItem :=
  let k := lowerStrip key
  if k = "mtpl".data then
    .ok ⟨key, .MTPL, none, none⟩
  else
    match matchProduct k with
    | none => .error (.invalidKeyFormat key)
    | some (prod, rest) =>
      match matchVariant rest with
      | none => .error (.invalidKeyFormat key)
      | some (var, ds) =>
        if !ds.isEmpty && ds.all Char.isDigit then
          match dedOfNat (digitsToNat ds) with
          | some d => .ok ⟨key, prod, some var, some d⟩
          | none => .error (.invalidDeductible key (digitsToNat ds))
        else .error (.invalidKeyFormat key)

/-- Product token together with the `_` separator that follows it in the
pattern, in the regex's textual form. -/
def prodTok : Product → List Char
  | .MTPL => []
  | .LIMITED_CASCO => "limited_casco_".data
  | .CASCO => "casco_".data

/-- Variant token together with the `_` separator that follows it. -/
def varTok : Variant → List Char
  | .COMPACT => "compact_".data
  | .BASIC => "basic_".data
  | .COMFORT => "comfort_".data
  | .PREMIUM => "premium_".data

/-- Spec-side characterisation of an accepted key, written from the spec's
words (claim C7): the lowercased, trimmed key is either the literal `mtpl` or
matches the whole-key pattern
`{limited_casco|casco}_{compact|basic|comfort|premium}_{d}` with the trailing
integer `d` equal to exactly one of 100, 200, 500. -/
def specKeyOK (key : String) : Prop :=
  lowerStrip key = "mtpl".data ∨
  ∃ ps vs ds : List Char,
    lowerStrip key = ps ++ "_".data ++ vs ++ "_".data ++ ds ∧
    ps ∈ ["limited_casco".data, "casco".data] ∧
    vs ∈ ["compact".data, "basic".data, "comfort".data, "premium".data] ∧
    ds ≠ [] ∧ ds.all Char.isDigit = true ∧
    digitsToNat ds ∈ [100, 200, 500]

/-- `DefaultPriceParser.parse_all`: parse every key in insertion order; the
first failure aborts the whole call. -/
def parse_all : PriceMap → Except ParseError (List PricingItem)
  | [] => .ok []
  | (k, _) :: t =>
    match parse_key k with
    | .error e => .error e
    | .ok it =>
      match parse_all t with
      | .error e => .error e
      | .ok rest => .ok (it :: rest)

/-! ## Grouping helpers (`src/core.py`) -/

/-- `out.setdefault(g, {})[d] = k` on nested association lists. -/
def setdefaultSet {γ δ : Type} [DecidableEq γ] [DecidableEq δ]
    (out : List (γ × List (δ × String))) (g : γ) (d : δ) (k : String) :
    List (γ × List (δ × String)) :=
  aset out g (aset ((alookup out g).getD []) d k)

/-- `keys_by_product`: product to list of original dict keys, in item order. -/
def keys_by_product (items : List PricingItem) : List (Product × List String) :=
  items.foldl
    (fun out it => aset out it.product (((alookup out it.product).getD []) ++ [it.key]))
    []

/-- `group_by_product_and_variant`: `(product, variant) -> {deductible -> key}`.
Non-MTPL items always carry both fields (the source asserts this); items
violating it are skipped here, which parsed items never do. -/
def group_by_product_and_variant (items : List PricingItem) :
    List ((Product × Variant) × List (Deductible × String)) :=
  items.foldl
    (fun out it =>
      match it.product, it.variant, it.deductible with
      | .MTPL, _, _ => out
      | pr, some v, some d => setdefaultSet out (pr, v) d it.key
      | _, _, _ => out)
    []

/-- `group_by_product_and_deductible`: `(product, deductible) -> {variant -> key}`. -/
def group_by_product_and_deductible (items : List PricingItem) :
    List ((Product × Deductible) × List (Variant × String)) :=
  items.foldl
    (fun out it =>
      match it.product, it.variant, it.deductible with
      | .MTPL, _, _ => out
      | pr, some v, some d => setdefaultSet out (pr, d) v it.key
      | _, _, _ => out)
    []

/-- `group_by_variant_and_deductible`: `(variant, deductible) -> {product -> key}`. -/
def group_by_variant_and_deductible (items : List PricingItem) :
    List ((Variant × Deductible) × List (Product × String)) :=
  items.foldl
    (fun out it =>
      match it.product, it.variant, it.deductible with
      | .MTPL, _, _ => out
      | pr, some v, some d => setdefaultSet out (v, d) pr it.key
      | _, _, _ => out)
    []

/-! ## Validator (`src/validator.py`) -/

/-- Immutable violation record. -/
structure Violation where
  category : String
  rule : String
  message : String
  left_key : String
  right_key : String
  left_value : ℚ
  right_value : ℚ
deriving DecidableEq, Repr

/-- `min(p[k] for k in ks)` over a nonempty key list `k :: t`. -/
def minPrices (p : PriceMap) (k : String) (t : List String) : ℚ :=
  t.foldl (fun a k' => qmin a (getP p k')) (getP p k)

/-- `max(p[k] for k in ks)` over a nonempty key list `k :: t`. -/
def maxPrices (p : PriceMap) (k : String) (t : List String) : ℚ :=
  t.foldl (fun a k' => qmax a (getP p k')) (getP p k)

/-- Product-level floor checks: MTPL must be cheaper than both groups' minima,
LIMITED_CASCO checked before CASCO. -/
def productFloorViolations (p : PriceMap) (byProd : List (Product × List String))
    (mtpl : ℚ) : List Violation :=
  [Product.LIMITED_CASCO, Product.CASCO].foldl
    (fun acc prod =>
      match (alookup byProd prod).getD [] with
      | [] => acc
      | k :: t =>
        let group_min := minPrices p k t
        if mtpl < group_min then acc
        else acc ++
          [{ category := "product"
             rule := "mtpl < min(" ++ prod.key ++ ")"
             message := "mtpl must be cheaper than the cheapest policy in " ++
               prod.key ++ "."
             left_key := "mtpl"
             right_key := "min(" ++ prod.key ++ ")"
             left_value := mtpl
             right_value := group_min }])
    []

/-- Product-level matched-pair checks: `limited_casco(v,d) < casco(v,d)`. -/
def crossProductViolations (p : PriceMap) (items : List PricingItem) :
    List Violation :=
  (group_by_variant_and_deductible items).foldl
    (fun acc gm =>
      match alookup gm.2 Product.LIMITED_CASCO, alookup gm.2 Product.CASCO with
      | some lc_key, some c_key =>
        if getP p lc_key < getP p c_key then acc
        else acc ++
          [{ category := "product"
             rule := "limited_casco < casco"
             message :=
               "Limited Casco must be cheaper than Casco for same variant & deductible."
             left_key := lc_key
             right_key := c_key
             left_value := getP p lc_key
             right_value := getP p c_key }]
      | _, _ => acc)
    []

/-- Deductible-level checks within `(product, variant)`: `100 > 200 > 500`. -/
def deductibleViolations (p : PriceMap) (items : List PricingItem) :
    List Violation :=
  (group_by_product_and_variant items).foldl
    (fun acc gm =>
      let m := gm.2
      let acc1 :=
        match alookup m .D100, alookup m .D200 with
        | some k100, some k200 =>
          if getP p k100 > getP p k200 then acc
          else acc ++
            [{ category := "deductible"
               rule := "100 > 200"
               message := gm.1.1.key ++ "_" ++ gm.1.2.key ++
                 ": 100 must be more expensive than 200."
               left_key := k100
               right_key := k200
               left_value := getP p k100
               right_value := getP p k200 }]
        | _, _ => acc
      match alookup m .D200, alookup m .D500 with
      | some k200, some k500 =>
        if getP p k200 > getP p k500 then acc1
        else acc1 ++
          [{ category := "deductible"
             rule := "200 > 500"
             message := gm.1.1.key ++ "_" ++ gm.1.2.key ++
               ": 200 must be more expensive than 500."
             left_key := k200
             right_key := k500
             left_value := getP p k200
             right_value := getP p k500 }]
      | _, _ => acc1)
    []

/-- Variant-level checks within `(product, deductible)`:
`max(compact, basic) < comfort < premium` on the tiers present. -/
def variantViolations (p : PriceMap) (items : List PricingItem) :
    List Violation :=
  (group_by_product_and_deductible items).foldl
    (fun acc gm =>
      let m := gm.2
      match ([Variant.COMPACT, Variant.BASIC].filterMap (fun v => alookup m v)) with
      | [] => acc
      | k :: t =>
        let base := maxPrices p k t
        let acc1 :=
          match alookup m .COMFORT with
          | some comfort_key =>
            if base < getP p comfort_key then acc
            else acc ++
              [{ category := "variant"
                 rule := "base < comfort"
                 message := gm.1.1.key ++ "_" ++ toString gm.1.2.amount ++
                   ": comfort must be above compact/basic base."
                 left_key := "base(compact/basic)"
                 right_key := comfort_key
                 left_value := base
                 right_value := getP p comfort_key }]
          | none => acc
        match alookup m .PREMIUM with
        | some premium_key =>
          let lower :=
            match alookup m .COMFORT with
            | some comfort_key => getP p comfort_key
            | none => base
          let left_name :=
            match alookup m .COMFORT with
            | some _ => "comfort"
            | none => "base(compact/basic)"
          if lower < getP p premium_key then acc1
          else acc1 ++
            [{ category := "variant"
               rule := "comfort/base < premium"
               message := gm.1.1.key ++ "_" ++ toString gm.1.2.amount ++
                 ": premium must be above comfort/base."
               left_key := left_name
               right_key := premium_key
               left_value := lower
               right_value := getP p premium_key }]
        | none => acc1)
    []

/-- The violation list computed by `DefaultPriceValidator.validate` once the
anchor-key presence check has passed.  The categories appear in the source's
order: product floor, cross-product, deductible, variant. -/
def validateCore (p : PriceMap) (items : List PricingItem) : List Violation :=
  let mtpl := getP p "mtpl"
  let byProd := keys_by_product items
  productFloorViolations p byProd mtpl ++ crossProductViolations p items ++
    deductibleViolations p items ++ variantViolations p items

/-- The `ValueError` raised by `validate` when the anchor key is absent
(spec name: `MissingAnchorKey`). -/
inductive ValidationError where
  | missingAnchorKey
deriving DecidableEq, Repr

/-- `DefaultPriceValidator.validate`: raises when the literal key `"mtpl"` is
not in the prices dict, otherwise returns the violation list. -/
def validateE (p : PriceMap) (items : List PricingItem) :
    Except ValidationError (List Violation) :=
  if hasKey p "mtpl" then .ok (validateCore p items) else .error .missingAnchorKey

/-! ## Fixer (`src/fixer.py`)

`DefaultPriceFixer` is instantiated by the engine with its default
configuration: `tau_outlier = 5.0`, `eps = 1e-6` (unused by any code path) and
`enable_mtpl_anchor = True`. -/

/-- One `report.log(...)` call site per constructor, carrying the data that the
source interpolates into the logged string. -/
inductive LogEntry where
  | anchor (old new ratio : ℚ)
  | productMin (product : Product) (scale currentMin targetMin : ℚ)
  | crossProduct (key : String) (old new : ℚ) (vsKey : String)
  | deductibleFix (key : String) (old new : ℚ)
  | variantFix (key : String) (old new : ℚ)
deriving DecidableEq, Repr

/-- State threaded through a fixer pass: the price dict (mutated in place in
the source), the log entries appended so far, and the `changed` flag. -/
structure PassOut where
  prices : PriceMap
  log : List LogEntry
  changed : Bool
deriving DecidableEq, Repr

/-- Shared shape of the per-group fixer loops: each group is inspected against
the current prices; a group that fires yields the mutated prices and its log
entries and sets `changed`. -/
def passFold {γ : Type} (f : PriceMap → γ → Option (PriceMap × List LogEntry)) :
    PassOut → List γ → PassOut
  | st, [] => st
  | st, g :: gs =>
    match f st.prices g with
    | none => passFold f st gs
    | some (p', l) => passFold f ⟨p', st.log ++ l, true⟩ gs

def tau_outlier : ℚ := 5

/-- Ordered insertion, the helper of a stable ascending sort. -/
def insertLe (x : ℚ) : List ℚ → List ℚ
  | [] => [x]
  | y :: t => if x ≤ y then x :: y :: t else y :: insertLe x t

/-- Stable ascending sort (insertion sort).  `statistics.median` only consumes
the sorted value sequence, which any stable ascending sort determines. -/
def sortLe (l : List ℚ) : List ℚ := l.foldr insertLe []

/-- `statistics.median`: sort ascending; middle element for odd length, mean of
the two middle elements for even length (never called on `[]` in the source). -/
def median (l : List ℚ) : ℚ :=
  let s := sortLe l
  let n := s.length
  if n % 2 = 1 then s.getD (n / 2) 0
  else (s.getD (n / 2 - 1) 0 + s.getD (n / 2) 0) / 2

/-- `sum(prices[k] for k in ks) / len(ks)`. -/
def meanPrices (p : PriceMap) (ks : List String) : ℚ :=
  (ks.map (getP p)).sum / (ks.length : ℚ)

/-- `DefaultPriceFixer.set_mtpl_anchor`. -/
def set_mtpl_anchor (p : PriceMap) (items : List PricingItem) : PassOut :=
  let byProd := keys_by_product items
  let mtpl := getP p "mtpl"
  let k_mtpl := mtpl / REFERENCE_AVG_PRICE .MTPL
  let lc_keys := (alookup byProd .LIMITED_CASCO).getD []
  let ks1 :=
    if lc_keys.isEmpty then [k_mtpl]
    else [k_mtpl, meanPrices p lc_keys / REFERENCE_AVG_PRICE .LIMITED_CASCO]
  let c_keys := (alookup byProd .CASCO).getD []
  let ks2 :=
    if c_keys.isEmpty then ks1
    else ks1 ++ [meanPrices p c_keys / REFERENCE_AVG_PRICE .CASCO]
  let k_ref := median ks2
  let ratio := qmax (k_mtpl / k_ref) (k_ref / k_mtpl)
  if ratio > tau_outlier then
    let new_mtpl := REFERENCE_AVG_PRICE .MTPL * k_ref
    if qabs (new_mtpl - mtpl) > 1 / 10 ^ 12 then
      ⟨aset p "mtpl" new_mtpl, [.anchor mtpl new_mtpl ratio], true⟩
    else ⟨p, [], false⟩
  else ⟨p, [], false⟩

/-- The group-scaling loop `for k in keys: prices[k] = float(prices[k]) * scale`. -/
def scaleFold (s : ℚ) (q : PriceMap) (ks : List String) : PriceMap :=
  ks.foldl (fun q' key => aset q' key (getP q' key * s)) q

/-- One product group of `enforce_product_minima_ratios`: fires when the group
minimum does not exceed `mtpl`, scaling every key of the group and logging a
single `[product-min]` entry. -/
def productMinStep (mtpl : ℚ) (byProd : List (Product × List String))
    (q : PriceMap) (pr : Product × ℚ) : Option (PriceMap × List LogEntry) :=
  match (alookup byProd pr.1).getD [] with
  | [] => none
  | k :: t =>
    let current_min := minPrices q k t
    if current_min > mtpl then none
    else
      let target_min := pr.2 * mtpl
      let scale := target_min / current_min
      some (scaleFold scale q (k :: t), [.productMin pr.1 scale current_min target_min])

/-- `DefaultPriceFixer.enforce_product_minima_ratios`: LIMITED_CASCO then
CASCO, with `mtpl` read once up front. -/
def enforce_product_minima_ratios (p : PriceMap) (items : List PricingItem) :
    PassOut :=
  let mtpl := getP p "mtpl"
  let byProd := keys_by_product items
  passFold (productMinStep mtpl byProd) ⟨p, [], false⟩
    [(Product.LIMITED_CASCO, RATIO_LC_OVER_MTPL), (Product.CASCO, RATIO_C_OVER_MTPL)]

/-- One `(variant, deductible)` pair of
`enforce_limited_casco_less_than_casco`: fires when both products are present
and `casco <= limited_casco`, rebasing only the CASCO cell. -/
def crossStep (q : PriceMap) (gm : (Variant × Deductible) × List (Product × String)) :
    Option (PriceMap × List LogEntry) :=
  match alookup gm.2 Product.LIMITED_CASCO, alookup gm.2 Product.CASCO with
  | some lc_key, some c_key =>
    let lc_price := getP q lc_key
    let c_price := getP q c_key
    if c_price > lc_price then none
    else
      let target := RATIO_C_OVER_LC * lc_price
      some (aset q c_key target, [.crossProduct c_key c_price target lc_key])
  | _, _ => none

/-- `DefaultPriceFixer.enforce_limited_casco_less_than_casco`. -/
def enforce_limited_casco_less_than_casco (p : PriceMap)
    (items : List PricingItem) : PassOut :=
  passFold crossStep ⟨p, [], false⟩ (group_by_variant_and_deductible items)

/-- First deductible check of a group: `not (price(100) > price(200))` when
the 200 tier is present. -/
def dedViol1 (q : PriceMap) (m : List (Deductible × String)) (p100 : ℚ) : Bool :=
  match alookup m .D200 with
  | some k200 => !(decide (p100 > getP q k200))
  | none => false

/-- Second deductible check of a group: `price(200) <= price(500)` when both
tiers are present. -/
def dedViol2 (q : PriceMap) (m : List (Deductible × String)) : Bool :=
  match alookup m .D200, alookup m .D500 with
  | some k200, some k500 => decide (getP q k200 ≤ getP q k500)
  | _, _ => false

/-- The ladder rebuild `for d in (D200, D500): prices[m[d]] = factor * p100`,
with the old value logged from the current prices (so the 500 write reads the
prices after the 200 write, exactly as the source does). -/
def dedRebuild (q : PriceMap) (m : List (Deductible × String)) (p100 : ℚ) :
    PriceMap × List LogEntry :=
  let st1 : PriceMap × List LogEntry :=
    match alookup m .D200 with
    | some k200 =>
      (aset q k200 (DEDUCTIBLE_FACTOR .D200 * p100),
        [.deductibleFix k200 (getP q k200) (DEDUCTIBLE_FACTOR .D200 * p100)])
    | none => (q, [])
  match alookup m .D500 with
  | some k500 =>
    (aset st1.1 k500 (DEDUCTIBLE_FACTOR .D500 * p100),
      st1.2 ++
        [.deductibleFix k500 (getP st1.1 k500) (DEDUCTIBLE_FACTOR .D500 * p100)])
  | none => st1

/-- One `(product, variant)` group of `enforce_deductible_order`: when the 100
tier exists and the ladder is violated anywhere, rebuild every present non-100
tier from the 100 price, logging one entry per write. -/
def dedStep (q : PriceMap) (gm : (Product × Variant) × List (Deductible × String)) :
    Option (PriceMap × List LogEntry) :=
  match alookup gm.2 .D100 with
  | none => none
  | some k100 =>
    if dedViol1 q gm.2 (getP q k100) || dedViol2 q gm.2 then
      some (dedRebuild q gm.2 (getP q k100))
    else none

/-- `DefaultPriceFixer.enforce_deductible_order`. -/
def enforce_deductible_order (p : PriceMap) (items : List PricingItem) : PassOut :=
  passFold dedStep ⟨p, [], false⟩ (group_by_product_and_variant items)

/-- One `(product, deductible)` group of `enforce_variant_order`: when a base
tier exists and the variant ladder is violated, rebuild comfort and premium
from the base, logging one entry per write. -/
def variantStep (q : PriceMap) (gm : (Product × Deductible) × List (Variant × String)) :
    Option (PriceMap × List LogEntry) :=
  let m := gm.2
  match ([Variant.COMPACT, Variant.BASIC].filterMap (fun v => alookup m v)) with
  | [] => none
  | k :: t =>
    let base := maxPrices q k t
    let viol1 :=
      match alookup m .COMFORT with
      | some comfort_key => decide (getP q comfort_key ≤ base)
      | none => false
    let viol2 :=
      match alookup m .PREMIUM with
      | some premium_key =>
        let lower :=
          match alookup m .COMFORT with
          | some comfort_key => getP q comfort_key
          | none => base
        decide (getP q premium_key ≤ lower)
      | none => false
    if viol1 || viol2 then
      let st1 : PriceMap × List LogEntry :=
        match alookup m .COMFORT with
        | some comfort_key =>
          (aset q comfort_key (VARIANT_FACTOR .COMFORT * base),
            [.variantFix comfort_key (getP q comfort_key)
              (VARIANT_FACTOR .COMFORT * base)])
        | none => (q, [])
      match alookup m .PREMIUM with
      | some premium_key =>
        some (aset st1.1 premium_key (VARIANT_FACTOR .PREMIUM * base),
          st1.2 ++
            [.variantFix premium_key (getP st1.1 premium_key)
              (VARIANT_FACTOR .PREMIUM * base)])
      | none => some st1
    else none

/-- `DefaultPriceFixer.enforce_variant_order`. -/
def enforce_variant_order (p : PriceMap) (items : List PricingItem) : PassOut :=
  passFold variantStep ⟨p, [], false⟩ (group_by_product_and_deductible items)

/-- `DefaultPriceFixer.enforce_product_type_order`. -/
def enforce_product_type_order (p : PriceMap) (items : List PricingItem) : PassOut :=
  let r1 := enforce_product_minima_ratios p items
  let r2 := enforce_limited_casco_less_than_casco r1.prices items
  ⟨r2.prices, r1.log ++ r2.log, r1.changed || r2.changed⟩

/-- `DefaultPriceFixer.fix_pass` with the engine's default configuration
(`enable_mtpl_anchor = True`). -/
def fix_pass (p : PriceMap) (items : List PricingItem) : PassOut :=
  let r1 := set_mtpl_anchor p items
  let r2 := enforce_product_type_order r1.prices items
  let r3 := enforce_deductible_order r2.prices items
  let r4 := enforce_variant_order r3.prices items
  ⟨r4.prices, r1.log ++ r2.log ++ r3.log ++ r4.log,
    r1.changed || r2.changed || r3.changed || r4.changed⟩

/-! ## Convergence engine (`src/main.py`) -/

structure FixReport where
  violations_before : List Violation
  violations_after : List Violation
  fix_log : List LogEntry
deriving DecidableEq, Repr

structure FixResult where
  fixed_prices : PriceMap
  converged : Bool
  iterations : Nat
  report : FixReport
deriving DecidableEq, Repr

inductive EngineError where
  | parseFailure (e : ParseError)
  | validationFailure (e : ValidationError)
deriving DecidableEq, Repr

/-- Outcome of the `for iteration in range(1, max_iterations + 1)` loop. -/
structure LoopOut where
  prices : PriceMap
  log : List LogEntry
  converged : Bool
  iterations : Nat
deriving DecidableEq, Repr

/-- The engine's iteration loop.  `fuel` is the number of iterations still
allowed, `iter` the number already executed.  Inside the loop `validate` is
called on a dict that still contains the anchor key (the fixers only overwrite
existing keys), so the anchor check cannot fail and the loop body is the total
`validateCore`. -/
def engineLoop (items : List PricingItem) :
    Nat → Nat → PriceMap → List LogEntry → LoopOut
  | 0, iter, p, log => ⟨p, log, false, iter⟩
  | fuel + 1, iter, p, log =>
    if (validateCore p items).isEmpty then ⟨p, log, true, iter + 1⟩
    else
      let r := fix_pass p items
      if r.changed then engineLoop items fuel (iter + 1) r.prices (log ++ r.log)
      else ⟨r.prices, log ++ r.log, false, iter + 1⟩

/-- The engine's default iteration cap. -/
def max_iterations : Nat := 10

/-- `PricingEngine.validate_and_fix` with the default collaborators and
`max_iterations = 10`.  The float coercion of the input map is the identity in
the rational model. -/
def validate_and_fix (input : PriceMap) : Except EngineError FixResult :=
  match parse_all input with
  | .error e => .error (.parseFailure e)
  | .ok items =>
    match validateE input items with
    | .error e => .error (.validationFailure e)
    | .ok vb =>
      let lo := engineLoop items max_iterations 0 input []
      .ok ⟨lo.prices, lo.converged, lo.iterations,
        ⟨vb, validateCore lo.prices items, lo.log⟩⟩

/-- All key strings stored in a grouping's inner maps, in order.  When the
input price map has pairwise distinct keys (as a Python dict always does),
this list has no duplicates. -/
def slotKeys {γ δ : Type} (G : List (γ × List (δ × String))) : List String :=
  G.foldr (fun gm acc => gm.2.map Prod.snd ++ acc) []

/-- The CASCO cells that the cross-product sub-pass will rebase: one per
`(variant, deductible)` group in which both products are present and the
ordering `casco > limited_casco` fails on the prices `p`. -/
def crossViolKeys (p : PriceMap) :
    List ((Variant × Deductible) × List (Product × String)) → List String
  | [] => []
  | gm :: G =>
    match alookup gm.2 Product.LIMITED_CASCO, alookup gm.2 Product.CASCO with
    | some lc_key, some c_key =>
      if getP p c_key > getP p lc_key then crossViolKeys p G
      else c_key :: crossViolKeys p G
    | _, _ => crossViolKeys p G

/-! ## Concrete example inputs used by witnesses and counterexamples -/

/-- A price map whose limited-casco group minimum (90) is below MTPL (400),
so the product-floor correction fires and rescales the whole group. -/
def floorExample : PriceMap :=
  [("mtpl", 400), ("limited_casco_basic_100", 100), ("limited_casco_basic_200", 90)]

/-- `parse_all floorExample`. -/
def floorExampleItems : List PricingItem :=
  [⟨"mtpl", .MTPL, none, none⟩,
   ⟨"limited_casco_basic_100", .LIMITED_CASCO, some .BASIC, some .D100⟩,
   ⟨"limited_casco_basic_200", .LIMITED_CASCO, some .BASIC, some .D200⟩]

/-- A price map on which exactly one cross-product pair (BASIC, 100) violates
`limited_casco < casco`. -/
def crossExample : PriceMap :=
  [("mtpl", 100), ("limited_casco_basic_100", 700), ("casco_basic_100", 650)]

/-- `parse_all crossExample`. -/
def crossExampleItems : List PricingItem :=
  [⟨"mtpl", .MTPL, none, none⟩,
   ⟨"limited_casco_basic_100", .LIMITED_CASCO, some .BASIC, some .D100⟩,
   ⟨"casco_basic_100", .CASCO, some .BASIC, some .D100⟩]

/-- A price map whose (CASCO, COMFORT) deductible ladder is broken
(`100 = 1000 < 200 = 1100`) and whose (CASCO, 200) variant ladder is broken
after the deductible rebuild, so the variant sub-pass overwrites the rebuilt
200 tier within the same fixer pass. -/
def dedExample : PriceMap :=
  [("mtpl", 100), ("casco_comfort_100", 1000), ("casco_comfort_200", 1100),
   ("casco_basic_200", 2000)]

/-- `parse_all dedExample`. -/
def dedExampleItems : List PricingItem :=
  [⟨"mtpl", .MTPL, none, none⟩,
   ⟨"casco_comfort_100", .CASCO, some .COMFORT, some .D100⟩,
   ⟨"casco_comfort_200", .CASCO, some .COMFORT, some .D200⟩,
   ⟨"casco_basic_200", .CASCO, some .BASIC, some .D200⟩]

/-! ## Proof development

Batteries marks the arithmetic on `Rat` `@[irreducible]`; concrete witnesses
evaluate it, so it is made semireducible for the rest of this file. -/

attribute [local semireducible] Rat.mul Rat.inv Rat.add Rat.sub Rat.ofScientific

/-! ### Association-list lemmas -/

theorem alookup_aset_self {α β : Type} [DecidableEq α] (l : List (α × β))
    (a : α) (b : β) : alookup (aset l a b) a = some b := by
  induction l with
  | nil => simp [aset, alookup]
  | cons kv t ih =>
    obtain ⟨k, v⟩ := kv
    by_cases h : k = a
    · subst h; simp [aset, alookup]
    · simp [aset, alookup, h, ih]

theorem alookup_aset_ne {α β : Type} [DecidableEq α] (l : List (α × β))
    {a a' : α} (b : β) (h : a' ≠ a) : alookup (aset l a b) a' = alookup l a' := by
  have h' : a ≠ a' := Ne.symm h
  induction l with
  | nil => simp [aset, alookup, h']
  | cons kv t ih =>
    obtain ⟨k, v⟩ := kv
    by_cases hk : k = a
    · subst hk; simp [aset, alookup, h']
    · simp only [aset, if_neg hk, alookup]
      by_cases hk' : k = a'
      · simp [hk']
      · simp [hk', ih]

theorem getP_aset_self (p : PriceMap) (k : String) (v : ℚ) :
    getP (aset p k v) k = v := by
  simp [getP, alookup_aset_self]

theorem getP_aset_ne (p : PriceMap) {k k' : String} (v : ℚ) (h : k' ≠ k) :
    getP (aset p k v) k' = getP p k' := by
  simp [getP, alookup_aset_ne _ _ h]

theorem alookup_mem {α β : Type} [DecidableEq α] {l : List (α × β)} {a : α}
    {b : β} (h : alookup l a = some b) : (a, b) ∈ l := by
  induction l with
  | nil => simp [alookup] at h
  | cons kv t ih =>
    obtain ⟨k, v⟩ := kv
    simp only [alookup] at h
    by_cases hk : k = a
    · rw [if_pos hk] at h
      injection h with hv
      simp [hk, hv]
    · rw [if_neg hk] at h
      exact List.mem_cons_of_mem _ (ih h)

/-! ### Generic lemmas about per-group fixer loops -/

theorem slotKeys_nil {γ δ : Type} : slotKeys ([] : List (γ × List (δ × String))) = [] := rfl

theorem slotKeys_cons {γ δ : Type} (gm : γ × List (δ × String))
    (G : List (γ × List (δ × String))) :
    slotKeys (gm :: G) = gm.2.map Prod.snd ++ slotKeys G := rfl

theorem mem_slotKeys {γ δ : Type} [DecidableEq δ] {G : List (γ × List (δ × String))}
    {gm : γ × List (δ × String)} {d : δ} {k : String} (hg : gm ∈ G)
    (hl : alookup gm.2 d = some k) : k ∈ slotKeys G := by
  induction G with
  | nil => simp at hg
  | cons g t ih =>
    rcases List.mem_cons.mp hg with h | h
    · subst h
      simp only [slotKeys_cons, List.mem_append]
      exact Or.inl (List.mem_map.mpr ⟨(d, k), alookup_mem hl, rfl⟩)
    · simp only [slotKeys_cons, List.mem_append]
      exact Or.inr (ih h)

theorem passFold_changed_of_changed {γ : Type}
    (f : PriceMap → γ → Option (PriceMap × List LogEntry)) (gs : List γ)
    (p : PriceMap) (log : List LogEntry) :
    (passFold f ⟨p, log, true⟩ gs).changed = true := by
  induction gs generalizing p log with
  | nil => rfl
  | cons g t ih =>
    simp only [passFold]
    cases f p g with
    | none => exact ih p log
    | some r => exact ih r.1 (log ++ r.2)

theorem passFold_id_of_not_changed {γ : Type}
    (f : PriceMap → γ → Option (PriceMap × List LogEntry)) (gs : List γ)
    (st : PassOut) (h : (passFold f st gs).changed = false) :
    passFold f st gs = st := by
  induction gs generalizing st with
  | nil => rfl
  | cons g t ih =>
    simp only [passFold] at h ⊢
    cases hf : f st.prices g with
    | none => rw [hf] at h; exact ih st h
    | some r =>
      rw [hf] at h
      rw [passFold_changed_of_changed] at h
      exact absurd h (by simp)

/-- Frame property: if each firing group only writes keys satisfying `W` of
that group, keys outside every group's write set keep their price. -/
theorem passFold_frame {γ : Type}
    (f : PriceMap → γ → Option (PriceMap × List LogEntry))
    (W : γ → String → Prop)
    (hf : ∀ q g r, f q g = some r → ∀ k, ¬ W g k → getP r.1 k = getP q k)
    (gs : List γ) (st : PassOut) (k : String) (hk : ∀ g ∈ gs, ¬ W g k) :
    getP (passFold f st gs).prices k = getP st.prices k := by
  induction gs generalizing st with
  | nil => rfl
  | cons g t ih =>
    simp only [passFold]
    cases hfg : f st.prices g with
    | none => exact ih st (fun g' hg' => hk g' (List.mem_cons_of_mem _ hg'))
    | some r =>
      have h1 : getP r.1 k = getP st.prices k :=
        hf st.prices g r hfg k (hk g (List.mem_cons_self g t))
      have h2 := ih ⟨r.1, st.log ++ r.2, true⟩
        (fun g' hg' => hk g' (List.mem_cons_of_mem _ hg'))
      exact h2.trans h1

/-! ### Bridges from the executable order operations to Mathlib's -/

theorem qmin_eq_min (a b : ℚ) : qmin a b = min a b := by
  unfold qmin
  split_ifs with h
  · exact (min_eq_left h).symm
  · exact (min_eq_right (le_of_not_le h)).symm

theorem qmax_eq_max (a b : ℚ) : qmax a b = max a b := by
  unfold qmax
  split_ifs with h
  · exact (max_eq_left h).symm
  · exact (max_eq_right (le_of_not_le h)).symm

theorem qabs_eq_abs (x : ℚ) : qabs x = |x| := by
  unfold qabs
  split_ifs with h
  · exact (abs_of_neg h).symm
  · exact (abs_of_nonneg (le_of_not_lt h)).symm

theorem qmin_mul_nonneg (a b s : ℚ) (hs : 0 ≤ s) :
    qmin (a * s) (b * s) = qmin a b * s := by
  unfold qmin
  rcases le_or_lt a b with h | h
  · rw [if_pos h, if_pos (mul_le_mul_of_nonneg_right h hs)]
  · rw [if_neg (not_le.mpr h)]
    by_cases h2 : a * s ≤ b * s
    · rw [if_pos h2]
      exact le_antisymm h2 (mul_le_mul_of_nonneg_right h.le hs)
    · rw [if_neg h2]

/-! ### Lemmas about the group-scaling loop and group minima -/

theorem getP_scaleFold_not_mem (s : ℚ) (ks : List String) (q : PriceMap)
    (x : String) (hx : x ∉ ks) : getP (scaleFold s q ks) x = getP q x := by
  induction ks generalizing q with
  | nil => rfl
  | cons k' t' ih =>
    have hxk : x ≠ k' := fun e => hx (e ▸ List.mem_cons_self k' t')
    have hxt : x ∉ t' := fun e => hx (List.mem_cons_of_mem _ e)
    calc getP (scaleFold s q (k' :: t')) x
        = getP (aset q k' (getP q k' * s)) x := ih _ hxt
      _ = getP q x := getP_aset_ne _ _ hxk

theorem getP_scaleFold_mem (s : ℚ) (ks : List String) (q : PriceMap)
    (x : String) (hnd : ks.Nodup) (hx : x ∈ ks) :
    getP (scaleFold s q ks) x = getP q x * s := by
  induction ks generalizing q with
  | nil => simp at hx
  | cons k' t' ih =>
    have hnd' : t'.Nodup := (List.nodup_cons.mp hnd).2
    have hk't' : k' ∉ t' := (List.nodup_cons.mp hnd).1
    rcases List.mem_cons.mp hx with rfl | hxt
    · calc getP (scaleFold s q (x :: t')) x
          = getP (aset q x (getP q x * s)) x := getP_scaleFold_not_mem _ _ _ _ hk't'
        _ = getP q x * s := getP_aset_self _ _ _
    · have hxk : x ≠ k' := fun e => hk't' (e ▸ hxt)
      calc getP (scaleFold s q (k' :: t')) x
          = getP (aset q k' (getP q k' * s)) x * s := ih _ hnd' hxt
        _ = getP q x * s := by rw [getP_aset_ne _ _ hxk]

theorem foldl_qmin_congr (t : List String) (p p' : PriceMap)
    (h : ∀ x ∈ t, getP p' x = getP p x) (a : ℚ) :
    t.foldl (fun a x => qmin a (getP p' x)) a =
      t.foldl (fun a x => qmin a (getP p x)) a := by
  induction t generalizing a with
  | nil => rfl
  | cons x' t' ih =>
    simp only [List.foldl_cons]
    rw [h x' (List.mem_cons_self x' t')]
    exact ih (fun x hx => h x (List.mem_cons_of_mem _ hx)) _

theorem minPrices_congr (p p' : PriceMap) (k : String) (t : List String)
    (h : ∀ x ∈ k :: t, getP p' x = getP p x) :
    minPrices p' k t = minPrices p k t := by
  unfold minPrices
  rw [h k (List.mem_cons_self k t)]
  exact foldl_qmin_congr t p p' (fun x hx => h x (List.mem_cons_of_mem _ hx)) _

theorem foldl_qmin_scale (t : List String) (p p' : PriceMap) (s : ℚ) (hs : 0 ≤ s)
    (h : ∀ x ∈ t, getP p' x = getP p x * s) (a : ℚ) :
    t.foldl (fun a x => qmin a (getP p' x)) (a * s) =
      t.foldl (fun a x => qmin a (getP p x)) a * s := by
  induction t generalizing a with
  | nil => rfl
  | cons x' t' ih =>
    simp only [List.foldl_cons]
    rw [h x' (List.mem_cons_self x' t'), qmin_mul_nonneg _ _ _ hs]
    exact ih (fun x hx => h x (List.mem_cons_of_mem _ hx)) _

theorem minPrices_scale (p p' : PriceMap) (k : String) (t : List String) (s : ℚ)
    (hs : 0 ≤ s) (h : ∀ x ∈ k :: t, getP p' x = getP p x * s) :
    minPrices p' k t = minPrices p k t * s := by
  unfold minPrices
  rw [h k (List.mem_cons_self k t)]
  exact foldl_qmin_scale t p p' s hs (fun x hx => h x (List.mem_cons_of_mem _ hx)) _

theorem foldl_qmin_pos (t : List String) (p : PriceMap)
    (ht : ∀ x ∈ t, 0 < getP p x) (a : ℚ) (ha : 0 < a) :
    0 < t.foldl (fun a x => qmin a (getP p x)) a := by
  induction t generalizing a with
  | nil => exact ha
  | cons x' t' ih =>
    simp only [List.foldl_cons]
    refine ih (fun x hx => ht x (List.mem_cons_of_mem _ hx)) _ ?_
    have hx' := ht x' (List.mem_cons_self x' t')
    unfold qmin
    split_ifs <;> [exact ha; exact hx']

theorem minPrices_pos (p : PriceMap) (k : String) (t : List String)
    (h : ∀ x ∈ k :: t, 0 < getP p x) : 0 < minPrices p k t := by
  unfold minPrices
  exact foldl_qmin_pos t p (fun x hx => h x (List.mem_cons_of_mem _ hx)) _
    (h k (List.mem_cons_self k t))

/-! ### Characterisation of the product-minima step -/

theorem productMinStep_empty (mtpl : ℚ) (byProd : List (Product × List String))
    (q : PriceMap) (prod : Product) (ratio : ℚ)
    (hks : (alookup byProd prod).getD [] = []) :
    productMinStep mtpl byProd q (prod, ratio) = none := by
  unfold productMinStep
  rw [hks]

theorem productMinStep_skip (mtpl : ℚ) (byProd : List (Product × List String))
    (q : PriceMap) (prod : Product) (ratio : ℚ) (k : String) (t : List String)
    (hks : (alookup byProd prod).getD [] = k :: t)
    (hc : mtpl < minPrices q k t) :
    productMinStep mtpl byProd q (prod, ratio) = none := by
  unfold productMinStep
  rw [hks]
  show (if minPrices q k t > mtpl then none
    else some (scaleFold (ratio * mtpl / minPrices q k t) q (k :: t),
      [LogEntry.productMin prod (ratio * mtpl / minPrices q k t)
        (minPrices q k t) (ratio * mtpl)])) = none
  rw [if_pos hc]

theorem productMinStep_fires (mtpl : ℚ) (byProd : List (Product × List String))
    (q : PriceMap) (prod : Product) (ratio : ℚ) (k : String) (t : List String)
    (hks : (alookup byProd prod).getD [] = k :: t)
    (hfire : minPrices q k t ≤ mtpl) :
    productMinStep mtpl byProd q (prod, ratio) =
      some (scaleFold (ratio * mtpl / minPrices q k t) q (k :: t),
        [LogEntry.productMin prod (ratio * mtpl / minPrices q k t)
          (minPrices q k t) (ratio * mtpl)]) := by
  unfold productMinStep
  rw [hks]
  show (if minPrices q k t > mtpl then none
    else some (scaleFold (ratio * mtpl / minPrices q k t) q (k :: t),
      [LogEntry.productMin prod (ratio * mtpl / minPrices q k t)
        (minPrices q k t) (ratio * mtpl)])) = _
  rw [if_neg (not_lt.mpr hfire)]

theorem productMinStep_frame (mtpl : ℚ) (byProd : List (Product × List String))
    (q : PriceMap) (prod : Product) (ratio : ℚ) (r : PriceMap × List LogEntry)
    (h : productMinStep mtpl byProd q (prod, ratio) = some r) (x : String)
    (hx : x ∉ (alookup byProd prod).getD []) : getP r.1 x = getP q x := by
  rcases hks : (alookup byProd prod).getD [] with _ | ⟨k, t⟩
  · rw [productMinStep_empty mtpl byProd q prod ratio hks] at h
    exact absurd h (by simp)
  · by_cases hc : mtpl < minPrices q k t
    · rw [productMinStep_skip mtpl byProd q prod ratio k t hks hc] at h
      exact absurd h (by simp)
    · rw [productMinStep_fires mtpl byProd q prod ratio k t hks (le_of_not_lt hc)] at h
      injection h with h2
      rw [← h2]
      rw [hks] at hx
      exact getP_scaleFold_not_mem _ _ _ _ hx

theorem passFold_pair {γ : Type} (f : PriceMap → γ → Option (PriceMap × List LogEntry))
    (p : PriceMap) (a b : γ) (q1 : PriceMap) (l1 : List LogEntry)
    (h1 : f p a = some (q1, l1)) :
    passFold f ⟨p, [], false⟩ [a, b] =
      match f q1 b with
      | none => ⟨q1, l1, true⟩
      | some r2 => ⟨r2.1, l1 ++ r2.2, true⟩ := by
  show passFold f ⟨p, [], false⟩ (a :: [b]) = _
  unfold passFold
  rw [h1]
  show passFold f ⟨q1, [] ++ l1, true⟩ [b] = _
  unfold passFold
  cases h2 : f q1 b with
  | none => simp [passFold]
  | some r2 => simp [passFold]

theorem passFold_pair_fst_none {γ : Type}
    (f : PriceMap → γ → Option (PriceMap × List LogEntry))
    (p : PriceMap) (a b : γ) (h1 : f p a = none) :
    passFold f ⟨p, [], false⟩ [a, b] =
      match f p b with
      | none => ⟨p, [], false⟩
      | some r2 => ⟨r2.1, r2.2, true⟩ := by
  show passFold f ⟨p, [], false⟩ (a :: [b]) = _
  unfold passFold
  rw [h1]
  show passFold f ⟨p, [], false⟩ [b] = _
  unfold passFold
  cases h2 : f p b with
  | none => simp [passFold]
  | some r2 => simp [passFold]

/-- C4.  When the product-floor correction fires for a product group (the
group minimum does not exceed the MTPL price read at the start of the
sub-pass), every key of the group is multiplied by the single factor
`ratio * mtpl / current_min`; hence price ratios within the group are
preserved exactly and the group's new minimum is exactly `ratio * mtpl`
(1e-9 tolerances are subsumed by exact equalities in the rational model).
The `Nodup` hypothesis states that the group key lists contain no repeated
key string, which holds whenever the items stem from a Python dict. -/
theorem product_floor_scaling_preserves_ratios
    (p : PriceMap) (items : List PricingItem) (prod : Product) (ratio s : ℚ)
    (hratio : (prod = .LIMITED_CASCO ∧ ratio = RATIO_LC_OVER_MTPL) ∨
      (prod = .CASCO ∧ ratio = RATIO_C_OVER_MTPL))
    (k : String) (t : List String)
    (hks : (alookup (keys_by_product items) prod).getD [] = k :: t)
    (hnd : ((alookup (keys_by_product items) .LIMITED_CASCO).getD [] ++
      (alookup (keys_by_product items) .CASCO).getD []).Nodup)
    (hpos : ∀ x ∈ k :: t, 0 < getP p x)
    (hmtpl : 0 < getP p "mtpl")
    (hfire : minPrices p k t ≤ getP p "mtpl")
    (hs : s = ratio * getP p "mtpl" / minPrices p k t) :
    (∀ x ∈ k :: t,
      getP (enforce_product_minima_ratios p items).prices x = getP p x * s) ∧
    (∀ a ∈ k :: t, ∀ b ∈ k :: t,
      getP (enforce_product_minima_ratios p items).prices a /
        getP (enforce_product_minima_ratios p items).prices b =
        getP p a / getP p b) ∧
    minPrices (enforce_product_minima_ratios p items).prices k t =
      ratio * getP p "mtpl" := by
  have hcm : 0 < minPrices p k t := minPrices_pos p k t hpos
  have hrpos : 0 < ratio := by
    rcases hratio with ⟨_, rfl⟩ | ⟨_, rfl⟩ <;>
      norm_num [RATIO_LC_OVER_MTPL, RATIO_C_OVER_MTPL, REFERENCE_AVG_PRICE]
  have hspos : 0 < s := by
    rw [hs]; exact div_pos (mul_pos hrpos hmtpl) hcm
  have he : enforce_product_minima_ratios p items =
      passFold (productMinStep (getP p "mtpl") (keys_by_product items))
        ⟨p, [], false⟩
        [(Product.LIMITED_CASCO, RATIO_LC_OVER_MTPL),
          (Product.CASCO, RATIO_C_OVER_MTPL)] := rfl
  have hi : ∀ x ∈ k :: t,
      getP (enforce_product_minima_ratios p items).prices x = getP p x * s := by
    rcases hratio with ⟨hpLC, hrEq⟩ | ⟨hpC, hrEq⟩
    · subst hpLC
      subst hrEq
      rw [hks] at hnd
      obtain ⟨hndLC, _, hdisj⟩ := List.nodup_append.mp hnd
      have hstep1 := productMinStep_fires (getP p "mtpl") (keys_by_product items) p
        Product.LIMITED_CASCO RATIO_LC_OVER_MTPL k t hks hfire
      rw [he, passFold_pair _ _ _ _ _ _ hstep1]
      intro x hx
      have hx_not_c : x ∉ (alookup (keys_by_product items) Product.CASCO).getD [] :=
        fun hc => hdisj hx hc
      have hp1 : getP (scaleFold
          (RATIO_LC_OVER_MTPL * getP p "mtpl" / minPrices p k t) p (k :: t)) x =
          getP p x * s := by
        rw [hs]
        exact getP_scaleFold_mem _ _ _ _ hndLC hx
      cases h2 : productMinStep (getP p "mtpl") (keys_by_product items)
          (scaleFold (RATIO_LC_OVER_MTPL * getP p "mtpl" / minPrices p k t) p
            (k :: t))
          (Product.CASCO, RATIO_C_OVER_MTPL) with
      | none =>
        exact hp1
      | some r2 =>
        have hframe := productMinStep_frame _ _ _ _ _ _ h2 x hx_not_c
        exact hframe.trans hp1
    · subst hpC
      subst hrEq
      rw [hks] at hnd
      obtain ⟨_, hndC, hdisj⟩ := List.nodup_append.mp hnd
      have hx_not_lc : ∀ x ∈ k :: t,
          x ∉ (alookup (keys_by_product items) Product.LIMITED_CASCO).getD [] :=
        fun x hx hlc => hdisj hlc hx
      rcases hlc : (alookup (keys_by_product items) Product.LIMITED_CASCO).getD []
        with _ | ⟨k0, t0⟩
      · have hstep1 := productMinStep_empty (getP p "mtpl") (keys_by_product items)
          p Product.LIMITED_CASCO RATIO_LC_OVER_MTPL hlc
        have hstep2 := productMinStep_fires (getP p "mtpl") (keys_by_product items)
          p Product.CASCO RATIO_C_OVER_MTPL k t hks hfire
        rw [he, passFold_pair_fst_none _ _ _ _ hstep1, hstep2]
        intro x hx
        rw [hs]
        exact getP_scaleFold_mem _ _ _ _ hndC hx
      · by_cases hc1 : getP p "mtpl" < minPrices p k0 t0
        · have hstep1 := productMinStep_skip (getP p "mtpl") (keys_by_product items)
            p Product.LIMITED_CASCO RATIO_LC_OVER_MTPL k0 t0 hlc hc1
          have hstep2 := productMinStep_fires (getP p "mtpl") (keys_by_product items)
            p Product.CASCO RATIO_C_OVER_MTPL k t hks hfire
          rw [he, passFold_pair_fst_none _ _ _ _ hstep1, hstep2]
          intro x hx
          rw [hs]
          exact getP_scaleFold_mem _ _ _ _ hndC hx
        · have hstep1 := productMinStep_fires (getP p "mtpl") (keys_by_product items)
            p Product.LIMITED_CASCO RATIO_LC_OVER_MTPL k0 t0 hlc
            (le_of_not_lt hc1)
          have hagree : ∀ x ∈ k :: t,
              getP (scaleFold
                (RATIO_LC_OVER_MTPL * getP p "mtpl" / minPrices p k0 t0) p
                (k0 :: t0)) x = getP p x := by
            intro x hx
            apply getP_scaleFold_not_mem
            have hnl := hx_not_lc x hx
            rw [hlc] at hnl
            exact hnl
          have hmineq : minPrices (scaleFold
              (RATIO_LC_OVER_MTPL * getP p "mtpl" / minPrices p k0 t0) p
              (k0 :: t0)) k t = minPrices p k t :=
            minPrices_congr p _ k t hagree
          have hfire2 : minPrices (scaleFold
              (RATIO_LC_OVER_MTPL * getP p "mtpl" / minPrices p k0 t0) p
              (k0 :: t0)) k t ≤ getP p "mtpl" := by
            rw [hmineq]; exact hfire
          have hstep2 := productMinStep_fires (getP p "mtpl") (keys_by_product items)
            (scaleFold (RATIO_LC_OVER_MTPL * getP p "mtpl" / minPrices p k0 t0) p
              (k0 :: t0))
            Product.CASCO RATIO_C_OVER_MTPL k t hks hfire2
          rw [he, passFold_pair _ _ _ _ _ _ hstep1, hstep2]
          intro x hx
          rw [hmineq, getP_scaleFold_mem _ _ _ _ hndC hx, hagree x hx, hs]
  refine ⟨hi, ?_, ?_⟩
  · intro a ha b hb
    rw [hi a ha, hi b hb]
    exact mul_div_mul_right _ _ (ne_of_gt hspos)
  · have hm := minPrices_scale p (enforce_product_minima_ratios p items).prices k t
      s (le_of_lt hspos) hi
    rw [hm, hs, mul_comm]
    exact div_mul_cancel₀ _ (ne_of_gt hcm)

/-- Witness for C4: on `floorExample` the limited-casco group fires with scale
`70/9`, and the ratio between the two group keys is preserved exactly. -/
theorem product_floor_scaling_preserves_ratios_witness :
    getP (enforce_product_minima_ratios floorExample floorExampleItems).prices
        "limited_casco_basic_200" /
      getP (enforce_product_minima_ratios floorExample floorExampleItems).prices
        "limited_casco_basic_100" =
    getP floorExample "limited_casco_basic_200" /
      getP floorExample "limited_casco_basic_100" :=
  (product_floor_scaling_preserves_ratios floorExample floorExampleItems
    .LIMITED_CASCO RATIO_LC_OVER_MTPL (70/9) (Or.inl ⟨rfl, rfl⟩)
    "limited_casco_basic_100" ["limited_casco_basic_200"]
    (by decide) (by decide) (by decide) (by decide) (by decide) (by decide)).2.1
    "limited_casco_basic_200" (by decide) "limited_casco_basic_100" (by decide)

/-- Counterexample to C9 as stated: running the engine on `floorExample`
mutates two distinct keys (both limited-casco prices change) in a single fixer
step, yet the fix log contains exactly one entry — the `[product-min]` group
scaling logs once per group, not once per mutation. -/
theorem fix_log_not_per_mutation :
    validate_and_fix floorExample =
      .ok ⟨[("mtpl", 400), ("limited_casco_basic_100", 7000/9),
            ("limited_casco_basic_200", 700)], true, 2,
        ⟨[⟨"product", "mtpl < min(limited_casco)",
            "mtpl must be cheaper than the cheapest policy in limited_casco.",
            "mtpl", "min(limited_casco)", 400, 90⟩], [],
          [.productMin .LIMITED_CASCO (70/9) 90 700]⟩⟩ ∧
    ([LogEntry.productMin .LIMITED_CASCO (70/9) 90 700].length = 1) ∧
    getP [("mtpl", (400 : ℚ)), ("limited_casco_basic_100", 7000/9),
        ("limited_casco_basic_200", 700)] "limited_casco_basic_100" ≠
      getP floorExample "limited_casco_basic_100" ∧
    getP [("mtpl", (400 : ℚ)), ("limited_casco_basic_100", 7000/9),
        ("limited_casco_basic_200", 700)] "limited_casco_basic_200" ≠
      getP floorExample "limited_casco_basic_200" :=
  ⟨rfl, rfl, by decide, by decide⟩

/-- C9 (amended).  The fix log records corrections in the order applied, but
the product-floor correction appends a single log entry per scaled group: when
the limited-casco group fires (and no casco group exists), the sub-pass
rewrites every key of the group yet its log has exactly one entry. -/
theorem product_floor_single_log_entry (p : PriceMap) (items : List PricingItem)
    (k : String) (t : List String)
    (hks : (alookup (keys_by_product items) .LIMITED_CASCO).getD [] = k :: t)
    (hndLC : (k :: t).Nodup)
    (hfire : minPrices p k t ≤ getP p "mtpl")
    (hcempty : (alookup (keys_by_product items) .CASCO).getD [] = []) :
    (enforce_product_minima_ratios p items).log.length = 1 ∧
    (∀ x ∈ k :: t, getP (enforce_product_minima_ratios p items).prices x =
      getP p x * (RATIO_LC_OVER_MTPL * getP p "mtpl" / minPrices p k t)) := by
  have hstep1 := productMinStep_fires (getP p "mtpl") (keys_by_product items) p
    Product.LIMITED_CASCO RATIO_LC_OVER_MTPL k t hks hfire
  have hstep2 := productMinStep_empty (getP p "mtpl") (keys_by_product items)
    (scaleFold (RATIO_LC_OVER_MTPL * getP p "mtpl" / minPrices p k t) p (k :: t))
    Product.CASCO RATIO_C_OVER_MTPL hcempty
  have he : enforce_product_minima_ratios p items =
      passFold (productMinStep (getP p "mtpl") (keys_by_product items))
        ⟨p, [], false⟩
        [(Product.LIMITED_CASCO, RATIO_LC_OVER_MTPL),
          (Product.CASCO, RATIO_C_OVER_MTPL)] := rfl
  rw [he, passFold_pair _ _ _ _ _ _ hstep1, hstep2]
  exact ⟨rfl, fun x hx => getP_scaleFold_mem _ _ _ _ hndLC hx⟩

/-- Witness for C9 (amended) on `floorExample`. -/
theorem product_floor_single_log_entry_witness :
    (enforce_product_minima_ratios floorExample floorExampleItems).log.length = 1 :=
  (product_floor_single_log_entry floorExample floorExampleItems
    "limited_casco_basic_100" ["limited_casco_basic_200"]
    (by decide) (by decide) (by decide) (by decide)).1

/-! ### A fixer pass that reports no change leaves the prices untouched -/

theorem set_mtpl_anchor_id_of_not_changed (p : PriceMap) (items : List PricingItem)
    (h : (set_mtpl_anchor p items).changed = false) :
    set_mtpl_anchor p items = ⟨p, [], false⟩ := by
  simp only [set_mtpl_anchor] at h ⊢
  split_ifs at h ⊢ <;> simp_all

theorem fix_pass_id_of_not_changed (p : PriceMap) (items : List PricingItem)
    (h : (fix_pass p items).changed = false) :
    fix_pass p items = ⟨p, [], false⟩ := by
  have h' : (fix_pass p items).changed =
      ((set_mtpl_anchor p items).changed ||
        (enforce_product_type_order (set_mtpl_anchor p items).prices items).changed ||
        (enforce_deductible_order
          (enforce_product_type_order (set_mtpl_anchor p items).prices items).prices
          items).changed ||
        (enforce_variant_order
          (enforce_deductible_order
            (enforce_product_type_order (set_mtpl_anchor p items).prices items).prices
            items).prices items).changed) := rfl
  rw [h'] at h
  simp only [Bool.or_eq_false_iff] at h
  obtain ⟨⟨⟨h1, h2⟩, h3⟩, h4⟩ := h
  have e1 : set_mtpl_anchor p items = ⟨p, [], false⟩ :=
    set_mtpl_anchor_id_of_not_changed p items h1
  rw [e1] at h2
  have h2' : (enforce_product_type_order p items).changed = false := h2
  have h2c : (enforce_product_type_order p items).changed =
      ((enforce_product_minima_ratios p items).changed ||
        (enforce_limited_casco_less_than_casco
          (enforce_product_minima_ratios p items).prices items).changed) := rfl
  rw [h2c] at h2'
  simp only [Bool.or_eq_false_iff] at h2'
  obtain ⟨h2a, h2b⟩ := h2'
  have e2a : enforce_product_minima_ratios p items = ⟨p, [], false⟩ :=
    passFold_id_of_not_changed _ _ _ h2a
  rw [e2a] at h2b
  have e2b : enforce_limited_casco_less_than_casco p items = ⟨p, [], false⟩ :=
    passFold_id_of_not_changed _ _ _ h2b
  have e2 : enforce_product_type_order p items = ⟨p, [], false⟩ := by
    unfold enforce_product_type_order
    simp [e2a, e2b]
  rw [e1, e2] at h3
  have e3 : enforce_deductible_order p items = ⟨p, [], false⟩ :=
    passFold_id_of_not_changed _ _ _ h3
  rw [e1, e2, e3] at h4
  have e4 : enforce_variant_order p items = ⟨p, [], false⟩ :=
    passFold_id_of_not_changed _ _ _ h4
  show fix_pass p items = ⟨p, [], false⟩
  unfold fix_pass
  simp [e1, e2, e3, e4]

/-! ### Engine loop contract -/

theorem engineLoop_converged_validate (items : List PricingItem) :
    ∀ (fuel iter : Nat) (p : PriceMap) (log : List LogEntry),
      (engineLoop items fuel iter p log).converged = true →
      validateCore (engineLoop items fuel iter p log).prices items = [] := by
  intro fuel
  induction fuel with
  | zero => intro iter p log h; exact absurd h (by simp [engineLoop])
  | succ n ih =>
    intro iter p log h
    simp only [engineLoop] at h ⊢
    by_cases he : (validateCore p items).isEmpty
    · rw [if_pos he] at h ⊢
      exact List.isEmpty_iff.mp he
    · rw [if_neg he] at h ⊢
      by_cases hc : (fix_pass p items).changed
      · rw [if_pos hc] at h ⊢
        exact ih _ _ _ h
      · rw [if_neg hc] at h
        exact absurd h (by simp)

theorem engineLoop_iterations_ge (items : List PricingItem) :
    ∀ (fuel iter : Nat) (p : PriceMap) (log : List LogEntry),
      iter ≤ (engineLoop items fuel iter p log).iterations := by
  intro fuel
  induction fuel with
  | zero => intro iter p log; simp [engineLoop]
  | succ n ih =>
    intro iter p log
    simp only [engineLoop]
    by_cases he : (validateCore p items).isEmpty
    · rw [if_pos he]; exact Nat.le_succ iter
    · rw [if_neg he]
      by_cases hc : (fix_pass p items).changed
      · rw [if_pos hc]
        exact le_trans (Nat.le_succ iter) (ih _ _ _)
      · rw [if_neg hc]; exact Nat.le_succ iter

theorem engineLoop_iterations_ge_one (items : List PricingItem) :
    ∀ (fuel iter : Nat) (p : PriceMap) (log : List LogEntry), 1 ≤ fuel →
      iter + 1 ≤ (engineLoop items fuel iter p log).iterations := by
  intro fuel
  cases fuel with
  | zero => intro iter p log h; exact absurd h (by simp)
  | succ n =>
    intro iter p log _
    simp only [engineLoop]
    by_cases he : (validateCore p items).isEmpty
    · rw [if_pos he]
    · rw [if_neg he]
      by_cases hc : (fix_pass p items).changed
      · rw [if_pos hc]
        exact engineLoop_iterations_ge items n (iter + 1) _ _
      · rw [if_neg hc]

theorem engineLoop_iterations_le (items : List PricingItem) :
    ∀ (fuel iter : Nat) (p : PriceMap) (log : List LogEntry),
      (engineLoop items fuel iter p log).iterations ≤ iter + fuel := by
  intro fuel
  induction fuel with
  | zero => intro iter p log; simp [engineLoop]
  | succ n ih =>
    intro iter p log
    simp only [engineLoop]
    by_cases he : (validateCore p items).isEmpty
    · rw [if_pos he]
      simp only []
      omega
    · rw [if_neg he]
      by_cases hc : (fix_pass p items).changed
      · rw [if_pos hc]
        have := ih (iter + 1) (fix_pass p items).prices (log ++ (fix_pass p items).log)
        omega
      · rw [if_neg hc]
        simp only []
        omega

theorem engineLoop_stall (items : List PricingItem) :
    ∀ (fuel iter : Nat) (p : PriceMap) (log : List LogEntry),
      (engineLoop items fuel iter p log).converged = false →
      (engineLoop items fuel iter p log).iterations = iter + fuel ∨
        ((fix_pass (engineLoop items fuel iter p log).prices items).changed = false ∧
          validateCore (engineLoop items fuel iter p log).prices items ≠ []) := by
  intro fuel
  induction fuel with
  | zero => intro iter p log _; left; simp [engineLoop]
  | succ n ih =>
    intro iter p log h
    simp only [engineLoop] at h ⊢
    by_cases he : (validateCore p items).isEmpty
    · rw [if_pos he] at h
      exact absurd h (by simp)
    · rw [if_neg he] at h ⊢
      by_cases hc : (fix_pass p items).changed
      · rw [if_pos hc] at h ⊢
        rcases ih (iter + 1) _ _ h with h' | h'
        · left; omega
        · right; exact h'
      · rw [if_neg hc] at h ⊢
        right
        have e := fix_pass_id_of_not_changed p items (by simpa using hc)
        constructor
        · show (fix_pass (fix_pass p items).prices items).changed = false
          rw [e]
          simpa using hc
        · show validateCore (fix_pass p items).prices items ≠ []
          rw [e]
          intro hcon
          rw [hcon] at he
          simp at he

/-- A helper that destructs a successful `validate_and_fix` run into the loop
outcome it was assembled from. -/
theorem validate_and_fix_ok {input : PriceMap} {r : FixResult}
    (h : validate_and_fix input = .ok r) :
    ∃ items vb, parse_all input = .ok items ∧ validateE input items = .ok vb ∧
      r = ⟨(engineLoop items max_iterations 0 input []).prices,
        (engineLoop items max_iterations 0 input []).converged,
        (engineLoop items max_iterations 0 input []).iterations,
        ⟨vb, validateCore (engineLoop items max_iterations 0 input []).prices items,
          (engineLoop items max_iterations 0 input []).log⟩⟩ := by
  unfold validate_and_fix at h
  split at h
  · exact absurd h (by simp)
  · rename_i items heq
    split at h
    · exact absurd h (by simp)
    · rename_i vb hveq
      refine ⟨items, vb, heq, hveq, ?_⟩
      simpa using h.symm

/-- C1.  Whenever `validate_and_fix` returns a converged result, the final
validation pass recorded in `violations_after` found no violations. -/
theorem converged_implies_no_violations_after (input : PriceMap) (r : FixResult)
    (h : validate_and_fix input = .ok r) (hc : r.converged = true) :
    r.report.violations_after = [] := by
  obtain ⟨items, vb, _, _, hr⟩ := validate_and_fix_ok h
  subst hr
  exact engineLoop_converged_validate items max_iterations 0 input [] hc

/-- Witness for C1: a converged run on a concrete single-key price map. -/
theorem converged_implies_no_violations_after_witness :
    ({ fixed_prices := [("mtpl", (400 : ℚ))], converged := true, iterations := 1,
       report := ⟨[], [], []⟩ } : FixResult).report.violations_after = [] :=
  converged_implies_no_violations_after [("mtpl", 400)] _ rfl rfl

/-- C6.  Contract of the engine loop: between 1 and `max_iterations`
iterations are used; `violations_after` is a final validation of the returned
prices; a converged run validates cleanly; a non-converged run either used the
whole iteration budget or stalled on a fixer pass that reports no change while
violations remain. -/
theorem engine_loop_contract (input : PriceMap) (items : List PricingItem)
    (r : FixResult) (hi : parse_all input = .ok items)
    (h : validate_and_fix input = .ok r) :
    (1 ≤ r.iterations ∧ r.iterations ≤ max_iterations) ∧
    r.report.violations_after = validateCore r.fixed_prices items ∧
    (r.converged = true → validateCore r.fixed_prices items = []) ∧
    (r.converged = false →
      r.iterations = max_iterations ∨
        ((fix_pass r.fixed_prices items).changed = false ∧
          validateCore r.fixed_prices items ≠ [])) := by
  obtain ⟨items', vb, hi', _, hr⟩ := validate_and_fix_ok h
  rw [hi] at hi'
  injection hi' with hitems
  subst hitems
  subst hr
  refine ⟨⟨?_, ?_⟩, rfl, ?_, ?_⟩
  · exact engineLoop_iterations_ge_one items max_iterations 0 input [] (by norm_num [max_iterations])
  · simpa using engineLoop_iterations_le items max_iterations 0 input []
  · exact engineLoop_converged_validate items max_iterations 0 input []
  · intro hnc
    simpa using engineLoop_stall items max_iterations 0 input [] hnc

/-- Witness for C6 at a concrete input that converges in one iteration. -/
theorem engine_loop_contract_witness :
    (1 ≤ 1 ∧ 1 ≤ max_iterations) ∧
    ([] : List Violation) = validateCore [("mtpl", (400 : ℚ))]
      [⟨"mtpl", .MTPL, none, none⟩] ∧
    (true = true → validateCore [("mtpl", (400 : ℚ))]
      [⟨"mtpl", .MTPL, none, none⟩] = []) ∧
    (true = false → (1 : Nat) = max_iterations ∨
      ((fix_pass [("mtpl", (400 : ℚ))] [⟨"mtpl", .MTPL, none, none⟩]).changed = false ∧
        validateCore [("mtpl", (400 : ℚ))] [⟨"mtpl", .MTPL, none, none⟩] ≠ [])) :=
  engine_loop_contract [("mtpl", 400)] [⟨"mtpl", .MTPL, none, none⟩]
    { fixed_prices := [("mtpl", (400 : ℚ))], converged := true, iterations := 1,
      report := ⟨[], [], []⟩ } rfl rfl

/-- Counterexample to C2 as stated: on this violation-free price map the
fixer's anchor sub-pass still fires, so a single `fix_pass` reports a change
and rewrites the `mtpl` price, contradicting the claim that a compliant input
is left untouched by `fix_pass`. -/
theorem clean_input_fix_pass_changes :
    parse_all [("mtpl", (400 : ℚ)), ("limited_casco_basic_100", 100000)] =
      .ok [⟨"mtpl", .MTPL, none, none⟩,
        ⟨"limited_casco_basic_100", .LIMITED_CASCO, some .BASIC, some .D100⟩] ∧
    validateCore [("mtpl", (400 : ℚ)), ("limited_casco_basic_100", 100000)]
      [⟨"mtpl", .MTPL, none, none⟩,
        ⟨"limited_casco_basic_100", .LIMITED_CASCO, some .BASIC, some .D100⟩] = [] ∧
    (fix_pass [("mtpl", (400 : ℚ)), ("limited_casco_basic_100", 100000)]
      [⟨"mtpl", .MTPL, none, none⟩,
        ⟨"limited_casco_basic_100", .LIMITED_CASCO, some .BASIC, some .D100⟩]).changed
      = true ∧
    getP (fix_pass [("mtpl", (400 : ℚ)), ("limited_casco_basic_100", 100000)]
      [⟨"mtpl", .MTPL, none, none⟩,
        ⟨"limited_casco_basic_100", .LIMITED_CASCO, some .BASIC, some .D100⟩]).prices
      "mtpl" ≠
      getP [("mtpl", (400 : ℚ)), ("limited_casco_basic_100", 100000)] "mtpl" :=
  ⟨rfl, by decide, by decide, by decide⟩

/-- C2 (amended).  On a violation-free input the engine itself stops in its
first iteration, before ever calling the fixer: the returned prices are the
(float-coerced) input unchanged, `converged` is true, exactly one iteration is
counted and the fix log is empty.  (The further statement of C2 about
`fix_pass` is refuted by `clean_input_fix_pass_changes`: the anchor sub-pass
can mutate a compliant map.) -/
theorem clean_input_engine_identity (input : PriceMap) (items : List PricingItem)
    (r : FixResult) (hi : parse_all input = .ok items)
    (hv : validateE input items = .ok []) (h : validate_and_fix input = .ok r) :
    r.fixed_prices = input ∧ r.converged = true ∧ r.iterations = 1 ∧
      r.report.fix_log = [] ∧ r.report.violations_before = [] := by
  obtain ⟨items', vb, hi', hv', hr⟩ := validate_and_fix_ok h
  rw [hi] at hi'
  injection hi' with hitems
  subst hitems
  rw [hv] at hv'
  injection hv' with hvb
  subst hvb
  have hcore : validateCore input items = [] := by
    unfold validateE at hv
    by_cases hk : hasKey input "mtpl"
    · rw [if_pos hk] at hv
      injection hv with h'
    · rw [if_neg hk] at hv
      exact absurd hv (by simp)
  have hloop : engineLoop items max_iterations 0 input [] =
      ⟨input, [], true, 1⟩ := by
    show engineLoop items 10 0 input [] = ⟨input, [], true, 1⟩
    show engineLoop items (9 + 1) 0 input [] = ⟨input, [], true, 1⟩
    simp only [engineLoop]
    rw [hcore]
    simp
  subst hr
  rw [hloop]
  exact ⟨rfl, rfl, rfl, rfl, rfl⟩

/-- Witness for C2 (amended) on a concrete violation-free input. -/
theorem clean_input_engine_identity_witness :
    [("mtpl", (400 : ℚ))] = [("mtpl", (400 : ℚ))] ∧ true = true ∧ (1 : Nat) = 1 ∧
      ([] : List LogEntry) = [] ∧ ([] : List Violation) = [] :=
  clean_input_engine_identity [("mtpl", 400)] [⟨"mtpl", .MTPL, none, none⟩]
    { fixed_prices := [("mtpl", (400 : ℚ))], converged := true, iterations := 1,
      report := ⟨[], [], []⟩ } rfl rfl rfl

/-! ### The cross-product sub-pass: per-cell rebase and frame property -/

theorem mem_slotKeys_of_mem {γ δ : Type} (G : List (γ × List (δ × String)))
    (gm : γ × List (δ × String)) (x : String) (hg : gm ∈ G)
    (hx : x ∈ gm.2.map Prod.snd) : x ∈ slotKeys G := by
  induction G with
  | nil => simp at hg
  | cons g t ih =>
    rcases List.mem_cons.mp hg with rfl | h
    · exact List.mem_append.mpr (Or.inl hx)
    · exact List.mem_append.mpr (Or.inr (ih h))

theorem passFold_cons_none {γ : Type}
    (f : PriceMap → γ → Option (PriceMap × List LogEntry)) (st : PassOut)
    (g : γ) (gs : List γ) (h : f st.prices g = none) :
    passFold f st (g :: gs) = passFold f st gs := by
  have e : passFold f st (g :: gs) =
      match f st.prices g with
      | none => passFold f st gs
      | some (q', l') => passFold f ⟨q', st.log ++ l', true⟩ gs := rfl
  rw [e, h]

theorem passFold_cons_some {γ : Type}
    (f : PriceMap → γ → Option (PriceMap × List LogEntry)) (st : PassOut)
    (g : γ) (gs : List γ) (p' : PriceMap) (l : List LogEntry)
    (h : f st.prices g = some (p', l)) :
    passFold f st (g :: gs) = passFold f ⟨p', st.log ++ l, true⟩ gs := by
  have e : passFold f st (g :: gs) =
      match f st.prices g with
      | none => passFold f st gs
      | some (q', l') => passFold f ⟨q', st.log ++ l', true⟩ gs := rfl
  rw [e, h]

theorem crossStep_fires (q : PriceMap)
    (gm : (Variant × Deductible) × List (Product × String)) (lck ck : String)
    (hl : alookup gm.2 Product.LIMITED_CASCO = some lck)
    (hc : alookup gm.2 Product.CASCO = some ck)
    (hv : ¬ getP q ck > getP q lck) :
    crossStep q gm = some (aset q ck (RATIO_C_OVER_LC * getP q lck),
      [.crossProduct ck (getP q ck) (RATIO_C_OVER_LC * getP q lck) lck]) := by
  unfold crossStep
  rw [hl, hc]
  show (if getP q ck > getP q lck then none
    else some (aset q ck (RATIO_C_OVER_LC * getP q lck),
      [LogEntry.crossProduct ck (getP q ck) (RATIO_C_OVER_LC * getP q lck) lck])) = _
  rw [if_neg hv]

theorem crossStep_skips (q : PriceMap)
    (gm : (Variant × Deductible) × List (Product × String)) (lck ck : String)
    (hl : alookup gm.2 Product.LIMITED_CASCO = some lck)
    (hc : alookup gm.2 Product.CASCO = some ck)
    (hv : getP q ck > getP q lck) : crossStep q gm = none := by
  unfold crossStep
  rw [hl, hc]
  show (if getP q ck > getP q lck then none
    else some (aset q ck (RATIO_C_OVER_LC * getP q lck),
      [LogEntry.crossProduct ck (getP q ck) (RATIO_C_OVER_LC * getP q lck) lck])) = _
  rw [if_pos hv]

theorem crossStep_missing (q : PriceMap)
    (gm : (Variant × Deductible) × List (Product × String))
    (h : alookup gm.2 Product.LIMITED_CASCO = none ∨
      alookup gm.2 Product.CASCO = none) : crossStep q gm = none := by
  unfold crossStep
  rcases h with h | h
  · rw [h]
  · rw [h]
    cases alookup gm.2 Product.LIMITED_CASCO <;> rfl

theorem crossStep_frame (q : PriceMap)
    (gm : (Variant × Deductible) × List (Product × String))
    (r : PriceMap × List LogEntry) (h : crossStep q gm = some r) (x : String)
    (hx : x ∉ gm.2.map Prod.snd) : getP r.1 x = getP q x := by
  rcases hl : alookup gm.2 Product.LIMITED_CASCO with _ | lck
  · rw [crossStep_missing q gm (Or.inl hl)] at h
    exact absurd h (by simp)
  · rcases hc : alookup gm.2 Product.CASCO with _ | ck
    · rw [crossStep_missing q gm (Or.inr hc)] at h
      exact absurd h (by simp)
    · by_cases hv : getP q ck > getP q lck
      · rw [crossStep_skips q gm lck ck hl hc hv] at h
        exact absurd h (by simp)
      · rw [crossStep_fires q gm lck ck hl hc hv] at h
        injection h with h2
        rw [← h2]
        have hckm : ck ∈ gm.2.map Prod.snd :=
          List.mem_map.mpr ⟨(Product.CASCO, ck), alookup_mem hc, rfl⟩
        exact getP_aset_ne _ _ (fun e => hx (e ▸ hckm))

theorem crossViolKeys_missing (p : PriceMap)
    (gm : (Variant × Deductible) × List (Product × String)) (G : List _)
    (h : alookup gm.2 Product.LIMITED_CASCO = none ∨
      alookup gm.2 Product.CASCO = none) :
    crossViolKeys p (gm :: G) = crossViolKeys p G := by
  simp only [crossViolKeys]
  rcases h with h | h
  · rw [h]
  · rw [h]
    cases alookup gm.2 Product.LIMITED_CASCO <;> rfl

theorem crossViolKeys_ok (p : PriceMap)
    (gm : (Variant × Deductible) × List (Product × String)) (G : List _)
    (lck ck : String) (hl : alookup gm.2 Product.LIMITED_CASCO = some lck)
    (hc : alookup gm.2 Product.CASCO = some ck)
    (h : getP p ck > getP p lck) :
    crossViolKeys p (gm :: G) = crossViolKeys p G := by
  simp only [crossViolKeys]
  rw [hl, hc]
  show (if getP p ck > getP p lck then crossViolKeys p G
    else ck :: crossViolKeys p G) = _
  rw [if_pos h]

theorem crossViolKeys_viol (p : PriceMap)
    (gm : (Variant × Deductible) × List (Product × String)) (G : List _)
    (lck ck : String) (hl : alookup gm.2 Product.LIMITED_CASCO = some lck)
    (hc : alookup gm.2 Product.CASCO = some ck)
    (h : ¬ getP p ck > getP p lck) :
    crossViolKeys p (gm :: G) = ck :: crossViolKeys p G := by
  simp only [crossViolKeys]
  rw [hl, hc]
  show (if getP p ck > getP p lck then crossViolKeys p G
    else ck :: crossViolKeys p G) = _
  rw [if_neg h]

theorem cross_fold_spec (p : PriceMap) :
    ∀ (G : List ((Variant × Deductible) × List (Product × String)))
      (q : PriceMap) (log : List LogEntry) (ch : Bool),
      (∀ x ∈ slotKeys G, getP q x = getP p x) → (slotKeys G).Nodup →
      (∀ gm ∈ G, ∀ lck ck, alookup gm.2 Product.LIMITED_CASCO = some lck →
        alookup gm.2 Product.CASCO = some ck → ¬ getP p ck > getP p lck →
        getP (passFold crossStep ⟨q, log, ch⟩ G).prices ck =
          RATIO_C_OVER_LC * getP p lck) ∧
      (∀ x, x ∉ crossViolKeys p G →
        getP (passFold crossStep ⟨q, log, ch⟩ G).prices x = getP q x) := by
  intro G
  induction G with
  | nil =>
    intro q log ch _ _
    exact ⟨fun gm hgm => absurd hgm (by simp), fun x _ => rfl⟩
  | cons gm G' ih =>
    intro q log ch hagree hnd
    rw [slotKeys_cons] at hagree hnd
    obtain ⟨hnd1, hnd2, hdisj⟩ := List.nodup_append.mp hnd
    have hagree2 : ∀ x ∈ slotKeys G', getP q x = getP p x :=
      fun x hx => hagree x (List.mem_append.mpr (Or.inr hx))
    rcases hl : alookup gm.2 Product.LIMITED_CASCO with _ | lck
    · have hstep := passFold_cons_none crossStep ⟨q, log, ch⟩ gm G'
        (crossStep_missing q gm (Or.inl hl))
      obtain ⟨ihA, ihB⟩ := ih q log ch hagree2 hnd2
      constructor
      · intro gm' hgm' lck' ck' hl' hc' hv'
        rcases List.mem_cons.mp hgm' with rfl | hmem
        · rw [hl] at hl'
          exact absurd hl' (by simp)
        · rw [hstep]
          exact ihA gm' hmem lck' ck' hl' hc' hv'
      · intro x hx
        rw [crossViolKeys_missing p gm G' (Or.inl hl)] at hx
        rw [hstep]
        exact ihB x hx
    · rcases hc : alookup gm.2 Product.CASCO with _ | ck
      · have hstep := passFold_cons_none crossStep ⟨q, log, ch⟩ gm G'
          (crossStep_missing q gm (Or.inr hc))
        obtain ⟨ihA, ihB⟩ := ih q log ch hagree2 hnd2
        constructor
        · intro gm' hgm' lck' ck' hl' hc' hv'
          rcases List.mem_cons.mp hgm' with rfl | hmem
          · rw [hc] at hc'
            exact absurd hc' (by simp)
          · rw [hstep]
            exact ihA gm' hmem lck' ck' hl' hc' hv'
        · intro x hx
          rw [crossViolKeys_missing p gm G' (Or.inr hc)] at hx
          rw [hstep]
          exact ihB x hx
      · have hlckm : lck ∈ gm.2.map Prod.snd :=
          List.mem_map.mpr ⟨(Product.LIMITED_CASCO, lck), alookup_mem hl, rfl⟩
        have hckm : ck ∈ gm.2.map Prod.snd :=
          List.mem_map.mpr ⟨(Product.CASCO, ck), alookup_mem hc, rfl⟩
        have hq_lck : getP q lck = getP p lck :=
          hagree lck (List.mem_append.mpr (Or.inl hlckm))
        have hq_ck : getP q ck = getP p ck :=
          hagree ck (List.mem_append.mpr (Or.inl hckm))
        by_cases hv : getP p ck > getP p lck
        · have hvq : getP q ck > getP q lck := by rw [hq_ck, hq_lck]; exact hv
          have hstep := passFold_cons_none crossStep ⟨q, log, ch⟩ gm G'
            (crossStep_skips q gm lck ck hl hc hvq)
          obtain ⟨ihA, ihB⟩ := ih q log ch hagree2 hnd2
          constructor
          · intro gm' hgm' lck' ck' hl' hc' hv'
            rcases List.mem_cons.mp hgm' with rfl | hmem
            · rw [hl] at hl'
              injection hl' with e1
              rw [hc] at hc'
              injection hc' with e2
              subst e1
              subst e2
              exact absurd hv hv'
            · rw [hstep]
              exact ihA gm' hmem lck' ck' hl' hc' hv'
          · intro x hx
            rw [crossViolKeys_ok p gm G' lck ck hl hc hv] at hx
            rw [hstep]
            exact ihB x hx
        · have hvq : ¬ getP q ck > getP q lck := by rw [hq_ck, hq_lck]; exact hv
          have hstep := passFold_cons_some crossStep ⟨q, log, ch⟩ gm G' _ _
            (crossStep_fires q gm lck ck hl hc hvq)
          have hagree2' : ∀ x ∈ slotKeys G',
              getP (aset q ck (RATIO_C_OVER_LC * getP q lck)) x = getP p x := by
            intro x hx
            have hxck : x ≠ ck := fun e => hdisj hckm (e ▸ hx)
            rw [getP_aset_ne _ _ hxck]
            exact hagree2 x hx
          obtain ⟨ihA, ihB⟩ := ih (aset q ck (RATIO_C_OVER_LC * getP q lck))
            (log ++ [.crossProduct ck (getP q ck) (RATIO_C_OVER_LC * getP q lck) lck])
            true hagree2' hnd2
          constructor
          · intro gm' hgm' lck' ck' hl' hc' hv'
            rcases List.mem_cons.mp hgm' with rfl | hmem
            · rw [hl] at hl'
              injection hl' with e1
              rw [hc] at hc'
              injection hc' with e2
              subst e1
              subst e2
              rw [hstep]
              have hckG' : ∀ g' ∈ G', ¬ ck ∈ g'.2.map Prod.snd :=
                fun g' hg' hmem' =>
                  hdisj hckm (mem_slotKeys_of_mem G' g' ck hg' hmem')
              have hfr := passFold_frame crossStep
                (fun g' x => x ∈ g'.2.map Prod.snd)
                (fun q' g' r' h' k' hk' => crossStep_frame q' g' r' h' k' hk') G'
                ⟨aset q ck (RATIO_C_OVER_LC * getP q lck),
                  log ++ [.crossProduct ck (getP q ck)
                    (RATIO_C_OVER_LC * getP q lck) lck], true⟩ ck hckG'
              rw [hfr]
              show getP (aset q ck (RATIO_C_OVER_LC * getP q lck)) ck = _
              rw [getP_aset_self, hq_lck]
            · rw [hstep]
              exact ihA gm' hmem lck' ck' hl' hc' hv'
          · intro x hx
            rw [crossViolKeys_viol p gm G' lck ck hl hc hv] at hx
            have hxck : x ≠ ck := fun e => hx (e ▸ List.mem_cons_self ck _)
            have hxrest : x ∉ crossViolKeys p G' :=
              fun e => hx (List.mem_cons_of_mem _ e)
            rw [hstep, ihB x hxrest, getP_aset_ne _ _ hxck]

/-- C5.  In the cross-product sub-pass, every `(variant, deductible)` pair
with both products present and `casco <= limited_casco` (on the prices
entering the sub-pass) has exactly its CASCO cell rebased to
`(900/700) * limited_casco`; every key that is not such a violating CASCO cell
— in particular the LIMITED_CASCO key of each pair and every compliant CASCO
cell — is left unchanged by the sub-pass. -/
theorem cross_product_rebase_frame (p : PriceMap) (items : List PricingItem)
    (hnd : (slotKeys (group_by_variant_and_deductible items)).Nodup) :
    (∀ gm ∈ group_by_variant_and_deductible items, ∀ lck ck,
      alookup gm.2 Product.LIMITED_CASCO = some lck →
      alookup gm.2 Product.CASCO = some ck →
      ¬ getP p ck > getP p lck →
      getP (enforce_limited_casco_less_than_casco p items).prices ck =
        RATIO_C_OVER_LC * getP p lck) ∧
    (∀ x, x ∉ crossViolKeys p (group_by_variant_and_deductible items) →
      getP (enforce_limited_casco_less_than_casco p items).prices x = getP p x) :=
  cross_fold_spec p (group_by_variant_and_deductible items) p [] false
    (fun _ _ => rfl) hnd

/-- Witness for C5 on `crossExample`: the violating CASCO cell is rebased to
`9/7` of its LIMITED_CASCO partner, which itself is untouched. -/
theorem cross_product_rebase_frame_witness :
    getP (enforce_limited_casco_less_than_casco crossExample
        crossExampleItems).prices "casco_basic_100" =
      RATIO_C_OVER_LC * getP crossExample "limited_casco_basic_100" ∧
    getP (enforce_limited_casco_less_than_casco crossExample
        crossExampleItems).prices "limited_casco_basic_100" =
      getP crossExample "limited_casco_basic_100" :=
  ⟨(cross_product_rebase_frame crossExample crossExampleItems (by decide)).1
      ((Variant.BASIC, Deductible.D100),
        [(Product.LIMITED_CASCO, "limited_casco_basic_100"),
          (Product.CASCO, "casco_basic_100")])
      (by decide) "limited_casco_basic_100" "casco_basic_100"
      (by decide) (by decide) (by decide),
    (cross_product_rebase_frame crossExample crossExampleItems (by decide)).2
      "limited_casco_basic_100" (by decide)⟩

/-! ### The deductible sub-pass: ladder rebuild correctness -/

theorem alookup_val_ne {δ : Type} [DecidableEq δ] (m : List (δ × String))
    (hnd : (m.map Prod.snd).Nodup) {d1 d2 : δ} {k1 k2 : String}
    (h1 : alookup m d1 = some k1) (h2 : alookup m d2 = some k2)
    (hd : d1 ≠ d2) : k1 ≠ k2 := by
  intro he
  have hm1 := alookup_mem h1
  have hm2 := alookup_mem h2
  have heq : (d1, k1) = (d2, k2) :=
    List.inj_on_of_nodup_map hnd hm1 hm2 (by simpa using he)
  exact hd (congrArg Prod.fst heq)

theorem dedStep_noD100 (q : PriceMap)
    (gm : (Product × Variant) × List (Deductible × String))
    (h : alookup gm.2 .D100 = none) : dedStep q gm = none := by
  unfold dedStep
  rw [h]

theorem dedStep_fires (q : PriceMap)
    (gm : (Product × Variant) × List (Deductible × String)) (k100 : String)
    (h100 : alookup gm.2 .D100 = some k100)
    (hv : (dedViol1 q gm.2 (getP q k100) || dedViol2 q gm.2) = true) :
    dedStep q gm = some (dedRebuild q gm.2 (getP q k100)) := by
  unfold dedStep
  rw [h100]
  show (if dedViol1 q gm.2 (getP q k100) || dedViol2 q gm.2 then
    some (dedRebuild q gm.2 (getP q k100)) else none) = _
  rw [if_pos hv]

theorem dedStep_skips (q : PriceMap)
    (gm : (Product × Variant) × List (Deductible × String)) (k100 : String)
    (h100 : alookup gm.2 .D100 = some k100)
    (hv : (dedViol1 q gm.2 (getP q k100) || dedViol2 q gm.2) = false) :
    dedStep q gm = none := by
  unfold dedStep
  rw [h100]
  show (if dedViol1 q gm.2 (getP q k100) || dedViol2 q gm.2 then
    some (dedRebuild q gm.2 (getP q k100)) else none) = _
  rw [if_neg (by simp [hv])]

theorem dedRebuild_k200 (q : PriceMap) (m : List (Deductible × String))
    (p100 : ℚ) (k200 : String) (h200 : alookup m .D200 = some k200)
    (hnd : (m.map Prod.snd).Nodup) :
    getP (dedRebuild q m p100).1 k200 = DEDUCTIBLE_FACTOR .D200 * p100 := by
  unfold dedRebuild
  rw [h200]
  cases h500 : alookup m .D500 with
  | none => exact getP_aset_self _ _ _
  | some k500 =>
    have hne : k200 ≠ k500 := alookup_val_ne m hnd h200 h500 (by decide)
    show getP (aset (aset q k200 (DEDUCTIBLE_FACTOR .D200 * p100)) k500
      (DEDUCTIBLE_FACTOR .D500 * p100)) k200 = _
    rw [getP_aset_ne _ _ hne, getP_aset_self]

theorem dedRebuild_k500 (q : PriceMap) (m : List (Deductible × String))
    (p100 : ℚ) (k500 : String) (h500 : alookup m .D500 = some k500) :
    getP (dedRebuild q m p100).1 k500 = DEDUCTIBLE_FACTOR .D500 * p100 := by
  unfold dedRebuild
  rw [h500]
  exact getP_aset_self _ _ _

theorem dedRebuild_frame (q : PriceMap) (m : List (Deductible × String))
    (p100 : ℚ) (x : String)
    (hx200 : ∀ k, alookup m .D200 = some k → x ≠ k)
    (hx500 : ∀ k, alookup m .D500 = some k → x ≠ k) :
    getP (dedRebuild q m p100).1 x = getP q x := by
  unfold dedRebuild
  cases h200 : alookup m .D200 with
  | none =>
    cases h500 : alookup m .D500 with
    | none => rfl
    | some k500 => exact getP_aset_ne _ _ (hx500 _ h500)
  | some k200 =>
    cases h500 : alookup m .D500 with
    | none => exact getP_aset_ne _ _ (hx200 _ h200)
    | some k500 =>
      show getP (aset (aset q k200 (DEDUCTIBLE_FACTOR .D200 * p100)) k500
        (DEDUCTIBLE_FACTOR .D500 * p100)) x = _
      rw [getP_aset_ne _ _ (hx500 _ h500), getP_aset_ne _ _ (hx200 _ h200)]

theorem dedStep_frame (q : PriceMap)
    (gm : (Product × Variant) × List (Deductible × String))
    (r : PriceMap × List LogEntry) (h : dedStep q gm = some r) (x : String)
    (hx : x ∉ gm.2.map Prod.snd) : getP r.1 x = getP q x := by
  rcases h100 : alookup gm.2 .D100 with _ | k100
  · rw [dedStep_noD100 q gm h100] at h
    exact absurd h (by simp)
  · by_cases hv : (dedViol1 q gm.2 (getP q k100) || dedViol2 q gm.2) = true
    · rw [dedStep_fires q gm k100 h100 hv] at h
      injection h with h2
      rw [← h2]
      refine dedRebuild_frame q gm.2 (getP q k100) x ?_ ?_
      · intro k hk he
        exact hx (he ▸ List.mem_map.mpr ⟨(.D200, k), alookup_mem hk, rfl⟩)
      · intro k hk he
        exact hx (he ▸ List.mem_map.mpr ⟨(.D500, k), alookup_mem hk, rfl⟩)
    · rw [dedStep_skips q gm k100 h100 (by simpa using hv)] at h
      exact absurd h (by simp)

theorem dedViol1_congr (q p : PriceMap) (m : List (Deductible × String))
    (p100 : ℚ) (h : ∀ k, alookup m .D200 = some k → getP q k = getP p k) :
    dedViol1 q m p100 = dedViol1 p m p100 := by
  unfold dedViol1
  cases h200 : alookup m .D200 with
  | none => rfl
  | some k =>
    show (!decide (p100 > getP q k)) = (!decide (p100 > getP p k))
    rw [h k h200]

theorem dedViol2_congr (q p : PriceMap) (m : List (Deductible × String))
    (h2 : ∀ k, alookup m .D200 = some k → getP q k = getP p k)
    (h5 : ∀ k, alookup m .D500 = some k → getP q k = getP p k) :
    dedViol2 q m = dedViol2 p m := by
  unfold dedViol2
  cases h200 : alookup m .D200 with
  | none => rfl
  | some k2 =>
    cases h500 : alookup m .D500 with
    | none => rfl
    | some k5 =>
      show decide (getP q k2 ≤ getP q k5) = decide (getP p k2 ≤ getP p k5)
      rw [h2 k2 h200, h5 k5 h500]

theorem dedViol_bool (p : PriceMap) (m : List (Deductible × String))
    (k100 : String)
    (hv : (∃ k200, alookup m .D200 = some k200 ∧
        ¬ getP p k100 > getP p k200) ∨
      (∃ k200 k500, alookup m .D200 = some k200 ∧
        alookup m .D500 = some k500 ∧ getP p k200 ≤ getP p k500)) :
    (dedViol1 p m (getP p k100) || dedViol2 p m) = true := by
  rcases hv with ⟨k200, h200, hlt⟩ | ⟨k200, k500, h200, h500, hle⟩
  · have h1 : dedViol1 p m (getP p k100) = true := by
      unfold dedViol1
      rw [h200]
      simp [hlt]
    rw [h1]
    simp
  · have h2 : dedViol2 p m = true := by
      unfold dedViol2
      rw [h200, h500]
      show decide (getP p k200 ≤ getP p k500) = true
      exact decide_eq_true hle
    rw [h2]
    simp

theorem ded_fold_spec (p : PriceMap) :
    ∀ (G : List ((Product × Variant) × List (Deductible × String)))
      (q : PriceMap) (log : List LogEntry) (ch : Bool),
      (∀ x ∈ slotKeys G, getP q x = getP p x) → (slotKeys G).Nodup →
      ∀ gm ∈ G, ∀ k100, alookup gm.2 Deductible.D100 = some k100 →
        ((∃ k200, alookup gm.2 Deductible.D200 = some k200 ∧
            ¬ getP p k100 > getP p k200) ∨
          (∃ k200 k500, alookup gm.2 Deductible.D200 = some k200 ∧
            alookup gm.2 Deductible.D500 = some k500 ∧
            getP p k200 ≤ getP p k500)) →
        (∀ k200, alookup gm.2 Deductible.D200 = some k200 →
          getP (passFold dedStep ⟨q, log, ch⟩ G).prices k200 =
            DEDUCTIBLE_FACTOR .D200 * getP p k100) ∧
        (∀ k500, alookup gm.2 Deductible.D500 = some k500 →
          getP (passFold dedStep ⟨q, log, ch⟩ G).prices k500 =
            DEDUCTIBLE_FACTOR .D500 * getP p k100) ∧
        getP (passFold dedStep ⟨q, log, ch⟩ G).prices k100 = getP p k100 := by
  intro G
  induction G with
  | nil =>
    intro q log ch _ _ gm hgm
    exact absurd hgm (by simp)
  | cons g0 G' ih =>
    intro q log ch hagree hnd gm hgm k100 h100 hviolp
    rw [slotKeys_cons] at hagree hnd
    obtain ⟨hnd1, hnd2, hdisj⟩ := List.nodup_append.mp hnd
    have hagree2 : ∀ x ∈ slotKeys G', getP q x = getP p x :=
      fun x hx => hagree x (List.mem_append.mpr (Or.inr hx))
    rcases List.mem_cons.mp hgm with rfl | hmem
    · -- the group is the head of the fold
      have hk100m : k100 ∈ gm.2.map Prod.snd :=
        List.mem_map.mpr ⟨(.D100, k100), alookup_mem h100, rfl⟩
      have hq100 : getP q k100 = getP p k100 :=
        hagree k100 (List.mem_append.mpr (Or.inl hk100m))
      have h2agree : ∀ k, alookup gm.2 .D200 = some k → getP q k = getP p k :=
        fun k hk => hagree k (List.mem_append.mpr
          (Or.inl (List.mem_map.mpr ⟨(.D200, k), alookup_mem hk, rfl⟩)))
      have h5agree : ∀ k, alookup gm.2 .D500 = some k → getP q k = getP p k :=
        fun k hk => hagree k (List.mem_append.mpr
          (Or.inl (List.mem_map.mpr ⟨(.D500, k), alookup_mem hk, rfl⟩)))
      have hb_q : (dedViol1 q gm.2 (getP q k100) || dedViol2 q gm.2) = true := by
        rw [dedViol1_congr q p gm.2 _ h2agree, dedViol2_congr q p gm.2 h2agree h5agree,
          hq100]
        exact dedViol_bool p gm.2 k100 hviolp
      have hfires := dedStep_fires q gm k100 h100 hb_q
      rcases hrb : dedRebuild q gm.2 (getP q k100) with ⟨r1, r2⟩
      rw [hrb] at hfires
      rw [passFold_cons_some _ _ _ _ _ _ hfires]
      have hframe_rest : ∀ y ∈ gm.2.map Prod.snd,
          getP (passFold dedStep ⟨r1, log ++ r2, true⟩ G').prices y = getP r1 y := by
        intro y hy
        refine passFold_frame dedStep (fun g' x => x ∈ g'.2.map Prod.snd)
          (fun q' g' r' h' k' hk' => dedStep_frame q' g' r' h' k' hk') G' _ y ?_
        intro g' hg' hmem'
        exact hdisj hy (mem_slotKeys_of_mem G' g' y hg' hmem')
      refine ⟨?_, ?_, ?_⟩
      · intro k200 h200
        have hk200m : k200 ∈ gm.2.map Prod.snd :=
          List.mem_map.mpr ⟨(.D200, k200), alookup_mem h200, rfl⟩
        rw [hframe_rest k200 hk200m]
        have hr := dedRebuild_k200 q gm.2 (getP q k100) k200 h200 hnd1
        rw [hrb] at hr
        rw [hq100] at hr
        exact hr
      · intro k500 h500
        have hk500m : k500 ∈ gm.2.map Prod.snd :=
          List.mem_map.mpr ⟨(.D500, k500), alookup_mem h500, rfl⟩
        rw [hframe_rest k500 hk500m]
        have hr := dedRebuild_k500 q gm.2 (getP q k100) k500 h500
        rw [hrb] at hr
        rw [hq100] at hr
        exact hr
      · rw [hframe_rest k100 hk100m]
        have hr := dedRebuild_frame q gm.2 (getP q k100) k100
          (fun k hk => alookup_val_ne gm.2 hnd1 h100 hk (by decide))
          (fun k hk => alookup_val_ne gm.2 hnd1 h100 hk (by decide))
        rw [hrb] at hr
        rw [hr, hq100]
    · -- the group sits later in the fold
      cases h0 : dedStep q g0 with
      | none =>
        rw [passFold_cons_none _ _ _ _ h0]
        exact ih q log ch hagree2 hnd2 gm hmem k100 h100 hviolp
      | some r =>
        rcases r with ⟨r1, r2⟩
        rw [passFold_cons_some _ _ _ _ _ _ h0]
        have hagree2' : ∀ x ∈ slotKeys G', getP r1 x = getP p x := by
          intro x hx
          have hxg0 : x ∉ g0.2.map Prod.snd :=
            fun hmem' => hdisj hmem' hx
          have := dedStep_frame q g0 (r1, r2) h0 x hxg0
          rw [this]
          exact hagree2 x hx
        exact ih r1 (log ++ r2) true hagree2' hnd2 gm hmem k100 h100 hviolp

set_option maxRecDepth 4000 in
/-- Counterexample to C3 as stated: in `dedExample` the (CASCO, COMFORT) group
has its 100-tier present and fails the `100 > 200` check before the fixer
pass, yet after one full `fix_pass` the 200-tier price is `2140`, far from
`0.9 × 1000 = 900`: the variant sub-pass, which runs after the deductible
sub-pass inside the same `fix_pass`, overwrote the rebuilt 200 tier. -/
theorem ded_rebuild_full_pass_cex :
    parse_all dedExample = .ok dedExampleItems ∧
    alookup (group_by_product_and_variant dedExampleItems)
        (Product.CASCO, Variant.COMFORT) =
      some [(Deductible.D100, "casco_comfort_100"),
            (Deductible.D200, "casco_comfort_200")] ∧
    ¬ getP dedExample "casco_comfort_100" > getP dedExample "casco_comfort_200" ∧
    getP (fix_pass dedExample dedExampleItems).prices "casco_comfort_100" = 1000 ∧
    getP (fix_pass dedExample dedExampleItems).prices "casco_comfort_200" = 2140 ∧
    qabs (getP (fix_pass dedExample dedExampleItems).prices "casco_comfort_200" -
        DEDUCTIBLE_FACTOR .D200 *
          getP (fix_pass dedExample dedExampleItems).prices "casco_comfort_100") >
      1 / 10 ^ 9 :=
  ⟨rfl, by decide, by decide, by decide, by decide, by decide⟩

/-- C3 (amended).  Immediately after the deductible-ladder sub-pass
(`enforce_deductible_order`) — not after the full fixer pass, whose later
variant sub-pass may overwrite the rebuilt tiers — every `(product, variant)`
group whose 100-tier exists and whose ordering check fails on the prices
entering that sub-pass has `price(200) = 0.9 × price(100)` and
`price(500) = 0.8 × price(100)` exactly, for whichever of those keys exist,
with the 100-tier itself unaltered. -/
theorem ded_rebuild_subpass_correct (p : PriceMap) (items : List PricingItem)
    (hnd : (slotKeys (group_by_product_and_variant items)).Nodup) :
    ∀ gm ∈ group_by_product_and_variant items, ∀ k100,
      alookup gm.2 Deductible.D100 = some k100 →
      ((∃ k200, alookup gm.2 Deductible.D200 = some k200 ∧
          ¬ getP p k100 > getP p k200) ∨
        (∃ k200 k500, alookup gm.2 Deductible.D200 = some k200 ∧
          alookup gm.2 Deductible.D500 = some k500 ∧
          getP p k200 ≤ getP p k500)) →
      (∀ k200, alookup gm.2 Deductible.D200 = some k200 →
        getP (enforce_deductible_order p items).prices k200 =
          DEDUCTIBLE_FACTOR .D200 * getP p k100) ∧
      (∀ k500, alookup gm.2 Deductible.D500 = some k500 →
        getP (enforce_deductible_order p items).prices k500 =
          DEDUCTIBLE_FACTOR .D500 * getP p k100) ∧
      getP (enforce_deductible_order p items).prices k100 = getP p k100 :=
  ded_fold_spec p (group_by_product_and_variant items) p [] false
    (fun _ _ => rfl) hnd

/-- Witness for C3 (amended) on `dedExample`: right after the deductible
sub-pass the broken 200 tier equals `0.9` times the 100 tier. -/
theorem ded_rebuild_subpass_correct_witness :
    getP (enforce_deductible_order dedExample dedExampleItems).prices
        "casco_comfort_200" =
      DEDUCTIBLE_FACTOR .D200 * getP dedExample "casco_comfort_100" :=
  ((ded_rebuild_subpass_correct dedExample dedExampleItems (by decide))
    ((Product.CASCO, Variant.COMFORT),
      [(Deductible.D100, "casco_comfort_100"),
        (Deductible.D200, "casco_comfort_200")])
    (by decide) "casco_comfort_100" (by decide)
    (Or.inl ⟨"casco_comfort_200", by decide, by decide⟩)).1
    "casco_comfort_200" (by decide)

/-! ### The key parser: acceptance characterisation -/

theorem isPre_decomp (tok : List Char) :
    ∀ cs : List Char, isPre tok cs = true → cs = tok ++ cs.drop tok.length := by
  induction tok with
  | nil => intro cs _; simp
  | cons a as ih =>
    intro cs h
    cases cs with
    | nil => exact absurd h (by simp [isPre])
    | cons b bs =>
      have h' : (a == b && isPre as bs) = true := h
      obtain ⟨h1, h2⟩ := Bool.and_eq_true_iff.mp h'
      have hab : a = b := by simpa using h1
      subst hab
      have hrec := ih bs h2
      show a :: bs = (a :: as) ++ (a :: bs).drop ((a :: as).length)
      rw [List.length_cons, List.drop_succ_cons, List.cons_append]
      rw [← hrec]

theorem tokenStrip_some {tok cs rest : List Char}
    (h : tokenStrip tok cs = some rest) : cs = tok ++ rest := by
  unfold tokenStrip at h
  by_cases hp : isPre tok cs
  · rw [if_pos hp] at h
    injection h with h2
    rw [← h2]
    exact isPre_decomp tok cs hp
  · rw [if_neg hp] at h
    exact absurd h (by simp)

theorem matchProduct_some {cs : List Char} {prod : Product} {rest : List Char}
    (h : matchProduct cs = some (prod, rest)) :
    prod ≠ .MTPL ∧ cs = prodTok prod ++ rest := by
  unfold matchProduct at h
  cases h1 : tokenStrip "limited_casco_".data cs with
  | some r1 =>
    rw [h1] at h
    injection h with h2
    cases h2
    exact ⟨by simp, tokenStrip_some h1⟩
  | none =>
    rw [h1] at h
    cases h2 : tokenStrip "casco_".data cs with
    | some r2 =>
      rw [h2] at h
      injection h with h3
      cases h3
      exact ⟨by simp, tokenStrip_some h2⟩
    | none =>
      rw [h2] at h
      exact absurd h (by simp)

theorem matchVariant_some {cs : List Char} {var : Variant} {rest : List Char}
    (h : matchVariant cs = some (var, rest)) : cs = varTok var ++ rest := by
  unfold matchVariant at h
  cases h1 : tokenStrip "compact_".data cs with
  | some r1 =>
    rw [h1] at h
    injection h with h2
    cases h2
    exact tokenStrip_some h1
  | none =>
    rw [h1] at h
    cases h2 : tokenStrip "basic_".data cs with
    | some r2 =>
      rw [h2] at h
      injection h with h3
      cases h3
      exact tokenStrip_some h2
    | none =>
      rw [h2] at h
      cases h3 : tokenStrip "comfort_".data cs with
      | some r3 =>
        rw [h3] at h
        injection h with h4
        cases h4
        exact tokenStrip_some h3
      | none =>
        rw [h3] at h
        cases h4 : tokenStrip "premium_".data cs with
        | some r4 =>
          rw [h4] at h
          injection h with h5
          cases h5
          exact tokenStrip_some h4
        | none =>
          rw [h4] at h
          exact absurd h (by simp)

theorem matchProduct_token (prod : Product) (h : prod ≠ .MTPL) (X : List Char) :
    matchProduct (prodTok prod ++ X) = some (prod, X) := by
  cases prod with
  | MTPL => exact absurd rfl h
  | LIMITED_CASCO => rfl
  | CASCO => rfl

theorem matchVariant_token (var : Variant) (X : List Char) :
    matchVariant (varTok var ++ X) = some (var, X) := by
  cases var <;> rfl

theorem dedOfNat_mem {n : Nat} {d : Deductible} (h : dedOfNat n = some d) :
    n ∈ [100, 200, 500] := by
  unfold dedOfNat at h
  split_ifs at h with h1 h2 h3
  · simp [h1]
  · simp [h2]
  · simp [h3]

theorem prod_of_ps (ps : List Char)
    (h : ps ∈ ["limited_casco".data, "casco".data]) :
    ∃ prod, prod ≠ Product.MTPL ∧ prodTok prod = ps ++ "_".data := by
  simp only [List.mem_cons, List.mem_singleton, List.not_mem_nil, or_false] at h
  rcases h with rfl | rfl
  · exact ⟨.LIMITED_CASCO, by simp, rfl⟩
  · exact ⟨.CASCO, by simp, rfl⟩

theorem var_of_vs (vs : List Char)
    (h : vs ∈ ["compact".data, "basic".data, "comfort".data, "premium".data]) :
    ∃ var, varTok var = vs ++ "_".data := by
  simp only [List.mem_cons, List.mem_singleton, List.not_mem_nil, or_false] at h
  rcases h with rfl | rfl | rfl | rfl
  · exact ⟨.COMPACT, rfl⟩
  · exact ⟨.BASIC, rfl⟩
  · exact ⟨.COMFORT, rfl⟩
  · exact ⟨.PREMIUM, rfl⟩

theorem prodTok_eq (prod : Product) (h : prod ≠ .MTPL) :
    ∃ ps, ps ∈ ["limited_casco".data, "casco".data] ∧
      prodTok prod = ps ++ "_".data := by
  cases prod with
  | MTPL => exact absurd rfl h
  | LIMITED_CASCO => exact ⟨"limited_casco".data, by simp, rfl⟩
  | CASCO => exact ⟨"casco".data, by simp, rfl⟩

theorem varTok_eq (var : Variant) :
    ∃ vs, vs ∈ ["compact".data, "basic".data, "comfort".data, "premium".data] ∧
      varTok var = vs ++ "_".data := by
  cases var with
  | COMPACT => exact ⟨"compact".data, by simp, rfl⟩
  | BASIC => exact ⟨"basic".data, by simp, rfl⟩
  | COMFORT => exact ⟨"comfort".data, by simp, rfl⟩
  | PREMIUM => exact ⟨"premium".data, by simp, rfl⟩

theorem parse_key_of_decomp (key : String) (prod : Product) (var : Variant)
    (ds : List Char) (hprod : prod ≠ .MTPL)
    (hk : lowerStrip key = prodTok prod ++ (varTok var ++ ds))
    (hne : ds ≠ []) (hdig : ds.all Char.isDigit = true)
    (d : Deductible) (hd : dedOfNat (digitsToNat ds) = some d) :
    parse_key key = .ok ⟨key, prod, some var, some d⟩ := by
  have hmtpl : ¬ (prodTok prod ++ (varTok var ++ ds) = "mtpl".data) := by
    cases prod with
    | MTPL => exact absurd rfl hprod
    | LIMITED_CASCO =>
      intro hcon
      have h2 := congrArg List.head? hcon
      simp [prodTok] at h2
    | CASCO =>
      intro hcon
      have h2 := congrArg List.head? hcon
      simp [prodTok] at h2
  have hcond : (!ds.isEmpty && ds.all Char.isDigit) = true := by
    rw [hdig]
    simp [List.isEmpty_iff, hne]
  simp only [parse_key]
  rw [hk, if_neg hmtpl, matchProduct_token prod hprod (varTok var ++ ds)]
  show (match matchVariant (varTok var ++ ds) with
    | none => Except.error (ParseError.invalidKeyFormat key)
    | some (var, ds) =>
      if !ds.isEmpty && ds.all Char.isDigit then
        match dedOfNat (digitsToNat ds) with
        | some d => Except.ok (⟨key, prod, some var, some d⟩ : PricingItem)
        | none => Except.error (ParseError.invalidDeductible key (digitsToNat ds))
      else Except.error (ParseError.invalidKeyFormat key)) =
    Except.ok (⟨key, prod, some var, some d⟩ : PricingItem)
  rw [matchVariant_token var ds]
  show (if !ds.isEmpty && ds.all Char.isDigit then
    match dedOfNat (digitsToNat ds) with
    | some d => Except.ok (⟨key, prod, some var, some d⟩ : PricingItem)
    | none => Except.error (ParseError.invalidDeductible key (digitsToNat ds))
    else Except.error (ParseError.invalidKeyFormat key)) =
    Except.ok (⟨key, prod, some var, some d⟩ : PricingItem)
  rw [if_pos hcond, hd]

/-- C7.  `parse_key` succeeds exactly on the keys the spec describes (the
lowercased, trimmed key is the literal `mtpl`, or the whole key matches
`{limited_casco|casco}_{compact|basic|comfort|premium}_{d}` with trailing
integer `d` in {100, 200, 500}); every failure carries an error naming the
offending key. -/
theorem parse_key_ok_iff (key : String) :
    ((∃ it, parse_key key = .ok it) ↔ specKeyOK key) ∧
    (∀ e, parse_key key = .error e → ParseError.offending e = key) := by
  constructor
  · constructor
    · rintro ⟨it, hit⟩
      simp only [parse_key] at hit
      split at hit
      · rename_i h1
        exact Or.inl h1
      · split at hit
        · exact absurd hit (by simp)
        · rename_i prod rest hm
          split at hit
          · exact absurd hit (by simp)
          · rename_i var ds hv
            split at hit
            · rename_i hcond
              split at hit
              · rename_i d hd
                obtain ⟨hprod, hcs⟩ := matchProduct_some hm
                have hrest := matchVariant_some hv
                obtain ⟨ps, hpsmem, hpse⟩ := prodTok_eq prod hprod
                obtain ⟨vs, hvsmem, hvse⟩ := varTok_eq var
                obtain ⟨h1, h2⟩ := Bool.and_eq_true_iff.mp hcond
                refine Or.inr ⟨ps, vs, ds, ?_, hpsmem, hvsmem, ?_, h2, dedOfNat_mem hd⟩
                · rw [hcs, hrest, hpse, hvse]
                  simp [List.append_assoc]
                · intro h0
                  rw [h0] at h1
                  simp at h1
              · exact absurd hit (by simp)
            · exact absurd hit (by simp)
    · intro hspec
      rcases hspec with h1 | ⟨ps, vs, ds, hk, hpsmem, hvsmem, hne, hdig, hmem⟩
      · refine ⟨⟨key, .MTPL, none, none⟩, ?_⟩
        simp only [parse_key]
        rw [if_pos h1]
      · obtain ⟨prod, hprod, hpe⟩ := prod_of_ps ps hpsmem
        obtain ⟨var, hve⟩ := var_of_vs vs hvsmem
        have hk' : lowerStrip key = prodTok prod ++ (varTok var ++ ds) := by
          rw [hpe, hve, hk]
          simp [List.append_assoc]
        simp only [List.mem_cons, List.mem_singleton, List.not_mem_nil, or_false]
          at hmem
        rcases hmem with hval | hval | hval
        · exact ⟨_, parse_key_of_decomp key prod var ds hprod hk' hne hdig .D100
            (by rw [hval]; rfl)⟩
        · exact ⟨_, parse_key_of_decomp key prod var ds hprod hk' hne hdig .D200
            (by rw [hval]; rfl)⟩
        · exact ⟨_, parse_key_of_decomp key prod var ds hprod hk' hne hdig .D500
            (by rw [hval]; rfl)⟩
  · intro e he
    simp only [parse_key] at he
    split at he
    · exact absurd he (by simp)
    · split at he
      · injection he with h'
        rw [← h']
        rfl
      · split at he
        · injection he with h'
          rw [← h']
          rfl
        · split at he
          · split at he
            · exact absurd he (by simp)
            · injection he with h'
              rw [← h']
              rfl
          · injection he with h'
            rw [← h']
            rfl

/-- Witness for C7: a concrete accepted key (case-insensitive, trimmed), a
concrete rejected key, and the error naming the offending key. -/
theorem parse_key_ok_iff_witness :
    (∃ it, parse_key "CASCO_basic_100 " = .ok it) ∧
    ParseError.offending (.invalidDeductible "casco_basic_300" 300) =
      "casco_basic_300" :=
  ⟨(parse_key_ok_iff "CASCO_basic_100 ").1.mpr
      (Or.inr ⟨"casco".data, "basic".data, "100".data, by decide, by decide,
        by decide, by decide, by decide, by decide⟩),
    (parse_key_ok_iff "casco_basic_300").2 _ rfl⟩

/-! ### The anchor-key check and determinism -/

/-- Counterexample to C8 as stated: the key `"MTPL"` parses to a MTPL item
(case-insensitively), so the map has an MTPL entry in the claim's sense, yet
`validate` still raises the missing-anchor error because its membership test
uses the literal dict key `"mtpl"`. -/
theorem validate_literal_anchor_cex :
    parse_all [("MTPL", (400 : ℚ))] = .ok [⟨"MTPL", .MTPL, none, none⟩] ∧
    validateE [("MTPL", (400 : ℚ))] [⟨"MTPL", .MTPL, none, none⟩] =
      .error .missingAnchorKey :=
  ⟨rfl, rfl⟩

/-- C8 (amended).  `validate` raises the missing-anchor error exactly when the
literal key `"mtpl"` is absent from the price map; a key spelled differently
(e.g. `"MTPL"` or `" mtpl "`) still parses to an MTPL item, but does not
satisfy the validator's literal membership check. -/
theorem validate_missing_anchor_iff :
    (∀ (p : PriceMap) (items : List PricingItem),
      validateE p items = .error .missingAnchorKey ↔ alookup p "mtpl" = none) ∧
    (∀ key : String, lowerStrip key = "mtpl".data →
      parse_key key = .ok ⟨key, .MTPL, none, none⟩) := by
  constructor
  · intro p items
    constructor
    · intro h
      unfold validateE at h
      by_cases hk : hasKey p "mtpl"
      · rw [if_pos hk] at h
        exact absurd h (by simp)
      · unfold hasKey at hk
        simpa using hk
    · intro h
      unfold validateE hasKey
      rw [h]
      rfl
  · intro key h
    simp only [parse_key]
    rw [if_pos h]

/-- Witness for C8 (amended): `"MTPL"` parses to an MTPL item, yet the
validator errors on a map whose only key is `"MTPL"`. -/
theorem validate_missing_anchor_iff_witness :
    validateE [("MTPL", (400 : ℚ))] [⟨"MTPL", .MTPL, none, none⟩] =
      .error .missingAnchorKey ∧
    parse_key "MTPL" = .ok ⟨"MTPL", .MTPL, none, none⟩ :=
  ⟨(validate_missing_anchor_iff.1 [("MTPL", (400 : ℚ))]
      [⟨"MTPL", .MTPL, none, none⟩]).mpr (by decide),
    validate_missing_anchor_iff.2 "MTPL" (by decide)⟩

/-- C10.  `validate_and_fix` is deterministic: two invocations on equal input
maps (same associations in the same enumeration order) return field-by-field
equal results.  The model is a pure function of the ordered association list,
which is exactly the state a Python dict carries. -/
theorem validate_and_fix_deterministic (in1 in2 : PriceMap) (r1 r2 : FixResult)
    (heq : in1 = in2) (h1 : validate_and_fix in1 = .ok r1)
    (h2 : validate_and_fix in2 = .ok r2) :
    r1.fixed_prices = r2.fixed_prices ∧ r1.converged = r2.converged ∧
    r1.iterations = r2.iterations ∧
    r1.report.violations_before = r2.report.violations_before ∧
    r1.report.violations_after = r2.report.violations_after ∧
    r1.report.fix_log = r2.report.fix_log := by
  subst heq
  rw [h1] at h2
  injection h2 with h3
  subst h3
  exact ⟨rfl, rfl, rfl, rfl, rfl, rfl⟩

/-- Witness for C10 at a concrete input. -/
theorem validate_and_fix_deterministic_witness :
    ([("mtpl", (400 : ℚ))] : PriceMap) = [("mtpl", 400)] ∧ true = true ∧
    (1 : Nat) = 1 ∧ ([] : List Violation) = [] ∧ ([] : List Violation) = [] ∧
    ([] : List LogEntry) = [] :=
  validate_and_fix_deterministic [("mtpl", 400)] [("mtpl", 400)]
    ⟨[("mtpl", 400)], true, 1, ⟨[], [], []⟩⟩
    ⟨[("mtpl", 400)], true, 1, ⟨[], [], []⟩⟩ rfl rfl rfl

end OminimoPriceValidator
